import Mathlib

/-!
# paddleball: the statistics engine (`cmd/paddleball/statsengine.go`)

A shallow embedding of the statistics engine of paddleball (`statsEngine`, `process`,
`fastForward`, `findPacket`, `statsPrint`, `statsUpdate`, `updateRtt`) and proofs about it.

Conventions of the embedding:

* Go's `int64` and `time.Duration` values are mathematical integers (`Int`). The properties
  proved here are about serials, counts and durations as integers; they describe the Go
  program as long as no serial, counter or duration reaches `2^63`.
* A Go `map[int64]int64` is a function `Int → Option Int`; reading a missing key gives
  Go's zero value `0` (`mget`), and `_, ok := m[k]` is the test `m k ≠ none`.
* Go visits the keys of a map in an unspecified order. The only loop over a map is the
  second loop of `fastForward`; it is modelled for an arbitrary order of the keys
  (`fastForwardOver`), and its result is the same for every order (`fastForwardOver_perm`).
* A slice is a `List`; `workWindow[position:]` is `List.drop position workWindow`.
* A function that mutates a map or a struct through a pointer returns the new value.
* The inner loop of `process` is modelled with fuel; `process` supplies enough of it for
  the loop to reach its exit (`catchUp_reaches`, `catchUp_enough_fuel`).
* Floating point is not modelled: a `float64` quotient is kept as its two integer operands
  (`floatQuot`). An integer division is `goDiv`, which is `none` (a panic) on a zero divisor.
* The loop of `statsEngine` never ends; it is modelled by its body, `statsEngineStep`, on one
  event (a packet from the channel, or a tick), and by `statsEngineRun` on a finite sequence
  of events. The clock, the length and capacity of the channel, and `json.Marshal` are
  inputs.
-/

namespace Paddleball

/-! ## Data model -/

/-- Modelled from the spec: the `payload` struct is declared in another file of the
repository. The spec (section 3, Probe Packet) gives its fields: sender identity, serial
number, upstream-queue-drop counter, creation timestamp and receipt timestamp. The two
timestamps are instants in integer nanoseconds. -/
structure payload where
  Id : Int
  Serial : Int
  Pbdrop : Int
  Cts : Int
  Rts : Int
deriving DecidableEq

/-- The struct `packetStats`, fields in the order of the source. -/
structure packetStats where
  dropPkts : Int
  dupPkts : Int
  reordPkts : Int
  rcvdPkts : Int
  pbdropPkts : Int
  minRtt : Int
  maxRtt : Int
  totRtt : Int
deriving DecidableEq

/-- The value of `packetStats{}`: every field is zero. -/
def packetStats.zero : packetStats := ⟨0, 0, 0, 0, 0, 0, 0, 0⟩

/-- A Go `map[int64]int64`. -/
abbrev IntMap := Int → Option Int

/-- The value of `make(map[int64]int64)`. -/
def emptyMap : IntMap := fun _ => none

/-- The Go expression `m[k]`: the zero value when `k` is not a key. -/
def mget (m : IntMap) (k : Int) : Int := (m k).getD 0

/-- The Go statement `m[k] = v`. -/
def mset (m : IntMap) (k v : Int) : IntMap := fun x => if x = k then some v else m x

/-- The state threaded through `process`: the interval stats `local` and the tracker
`serialNumbers`. -/
abbrev State := packetStats × IntMap

/-! ## `updateRtt` and `statsUpdate` -/

/-- The function `updateRtt`; `message.Rts.Sub(message.Cts)` is the difference of the two
instants. -/
def updateRtt (message : payload) (loc : packetStats) : packetStats :=
  let rtt := message.Rts - message.Cts
  let loc := { loc with totRtt := loc.totRtt + rtt }
  let loc := if rtt < loc.minRtt ∨ loc.minRtt = 0 then { loc with minRtt := rtt } else loc
  if rtt > loc.maxRtt then { loc with maxRtt := rtt } else loc

/-- The function `statsUpdate`: folds the interval stats `loc` into the cumulative `glob`. -/
def statsUpdate (glob loc : packetStats) : packetStats :=
  let glob := { glob with dropPkts := glob.dropPkts + loc.dropPkts }
  let glob := { glob with dupPkts := glob.dupPkts + loc.dupPkts }
  let glob := { glob with reordPkts := glob.reordPkts + loc.reordPkts }
  let glob := { glob with rcvdPkts := glob.rcvdPkts + loc.rcvdPkts }
  let glob := { glob with totRtt := glob.totRtt + loc.totRtt }
  let glob :=
    if loc.minRtt < glob.minRtt ∨ glob.minRtt = 0 then { glob with minRtt := loc.minRtt }
    else glob
  let glob := if loc.maxRtt > glob.maxRtt then { glob with maxRtt := loc.maxRtt } else glob
  { glob with pbdropPkts := glob.pbdropPkts + loc.pbdropPkts }

/-! ## `findPacket` -/

/-- One `for _, v := range ...` loop of `findPacket`, started with the counter at `n`. -/
def countMatches (serialNumbers : IntMap) (id : Int) (vs : List payload) (n : Int) : Int :=
  vs.foldl
    (fun n v => if v.Id = id then (if v.Serial = mget serialNumbers v.Id then n + 1 else n) else n)
    n

/-- The function `findPacket`: the number of packets of `id` carrying the serial the tracker
expects, in `workWindow[position:]` and then in `feedWindow`. -/
def findPacket (serialNumbers : IntMap) (workWindow feedWindow : List payload)
    (position : Nat) (id : Int) : Int :=
  let n := countMatches serialNumbers id (workWindow.drop position) 0
  countMatches serialNumbers id feedWindow n

/-! ## `fastForward` -/

/-- The body of the first loop of `fastForward`. -/
def lowestStep (lowest : IntMap) (v : payload) : IntMap :=
  match lowest v.Id with
  | none => mset lowest v.Id v.Serial
  | some _ => if v.Serial < mget lowest v.Id then mset lowest v.Id v.Serial else lowest

/-- The map `lowest` after the first loop of `fastForward`. -/
def lowestOf (workWindow : List payload) : IntMap :=
  workWindow.foldl lowestStep emptyMap

/-- The keys of `lowest`, each once: the identities of `workWindow`. Go visits them in an
unspecified order; `fastForwardOver` takes the order as an argument and `fastForward` fixes
one. -/
def lowestKeys (workWindow : List payload) : List Int :=
  (workWindow.map payload.Id).dedup

/-- The body of the second loop of `fastForward`, on the pair (`dropPkts`, `serialNumbers`). -/
def fastForwardStep (lowest : IntMap) (st : Int × IntMap) (id : Int) : Int × IntMap :=
  match st.2 id with
  | none => st
  | some _ =>
    if mget st.2 id < mget lowest id then
      (st.1 + (mget lowest id - mget st.2 id), mset st.2 id (mget lowest id))
    else st

/-- The function `fastForward` with the keys of `lowest` visited in the order `keys`. -/
def fastForwardOver (keys : List Int) (serialNumbers : IntMap) (workWindow : List payload) :
    Int × IntMap :=
  keys.foldl (fastForwardStep (lowestOf workWindow)) (0, serialNumbers)

/-- The function `fastForward`: returns `dropPkts` and the updated tracker. -/
def fastForward (serialNumbers : IntMap) (workWindow : List payload) : Int × IntMap :=
  fastForwardOver (lowestKeys workWindow) serialNumbers workWindow

/-! ## `process` -/

/-- The loop `for message.Serial > serialNumbers[message.Id]` of `process`. The loop
condition is tested at every iteration; `fuel` bounds the number of iterations, and
`process` supplies the distance between the serial and the expected value, which is the
number of iterations the loop makes (`catchUp_reaches`). -/
def catchUp (workWindow feedWindow : List payload) (position : Nat) (message : payload) :
    Nat → State → State
  | 0, st => st
  | fuel + 1, (loc, serialNumbers) =>
    if message.Serial > mget serialNumbers message.Id then
      let found := findPacket serialNumbers workWindow feedWindow position message.Id
      if found = 0 then
        catchUp workWindow feedWindow position message fuel
          ({ loc with dropPkts := loc.dropPkts + 1 },
            mset serialNumbers message.Id (mget serialNumbers message.Id + 1))
      else if found = 1 then
        catchUp workWindow feedWindow position message fuel
          ({ loc with reordPkts := loc.reordPkts + 1, rcvdPkts := loc.rcvdPkts + 1 },
            mset serialNumbers message.Id (mget serialNumbers message.Id + 1))
      else if found > 1 then
        catchUp workWindow feedWindow position message fuel
          ({ loc with
              reordPkts := loc.reordPkts + 1,
              dupPkts := loc.dupPkts + found,
              rcvdPkts := loc.rcvdPkts + 1 },
            mset serialNumbers message.Id (mget serialNumbers message.Id + 1))
      else
        catchUp workWindow feedWindow position message fuel (loc, serialNumbers)
    else (loc, serialNumbers)

/-- The body of the loop `for position, message := range workWindow` of `process`. -/
def processPacket (workWindow feedWindow : List payload) (position : Nat) (message : payload)
    (st : State) : State :=
  let loc := { st.1 with pbdropPkts := st.1.pbdropPkts + message.Pbdrop }
  let loc := updateRtt message loc
  let serialNumbers := st.2
  match serialNumbers message.Id with
  | none =>
    ({ loc with rcvdPkts := loc.rcvdPkts + 1 },
      mset serialNumbers message.Id (message.Serial + 1))
  | some _ =>
    if message.Serial < mget serialNumbers message.Id then
      ({ loc with rcvdPkts := loc.rcvdPkts + 1 }, serialNumbers)
    else
      let st1 := catchUp workWindow feedWindow position message
        (message.Serial - mget serialNumbers message.Id).toNat (loc, serialNumbers)
      let loc := { st1.1 with rcvdPkts := st1.1.rcvdPkts + 1 }
      let loc := { loc with
        dupPkts := loc.dupPkts + findPacket st1.2 workWindow feedWindow (position + 1) message.Id }
      (loc, mset st1.2 message.Id (mget st1.2 message.Id + 1))

/-- The loop `for position, message := range workWindow`, from index `position` on, where
`rest` holds the packets still to visit. -/
def processLoop (workWindow feedWindow : List payload) : Nat → List payload → State → State
  | _, [], st => st
  | position, message :: rest, st =>
    processLoop workWindow feedWindow (position + 1) rest
      (processPacket workWindow feedWindow position message st)

/-- The function `process`: returns the interval stats and the updated tracker. -/
def process (workWindow feedWindow : List payload) (serialNumbers : IntMap) : State :=
  let ff := fastForward serialNumbers workWindow
  processLoop workWindow feedWindow 0 workWindow
    ({ packetStats.zero with dropPkts := ff.1 }, ff.2)

/-! ## `statsPrint` -/

/-- A `float64` quotient `float64(num) / float64(den)`, kept as its two integer operands:
floating point is not modelled, and a floating-point division does not panic, whatever the
divisor. -/
structure floatQuot where
  num : Int
  den : Int
deriving DecidableEq

/-- Go's integer division `a / b`, which truncates toward zero; `none` is the run-time
panic on a zero divisor. -/
def goDiv (a b : Int) : Option Int :=
  if b = 0 then none else some (Int.tdiv a b)

/-- The line that `statsPrint` writes in text mode, as the values it prints, in the order
of the `fmt.Print` calls. The two percentages are `droppedPct * 100` and
`reorderedPct * 100`. -/
structure textLine where
  received : Int
  dropped : Int
  droppedPct : floatQuot
  reordered : Int
  reorderedPct : floatQuot
  duplicates : Int
  avgRtt : Int
  fastest : Int
  slowest : Int
  qlen : Int
  qcap : Int
  qdrops : Int
deriving DecidableEq

/-- The struct `jsonReport`, fields in the order of the source. `TimestampUtc` is an
instant in integer nanoseconds; the three RTT fields are quotients by `1000000`. -/
structure jsonReport where
  Tag : String
  TimestampUtc : Int
  ReceivedPackets : Int
  DroppedPackets : Int
  DuplicatePackets : Int
  ReorderedPackets : Int
  AverageRTT : floatQuot
  LowestRTT : floatQuot
  HighestRTT : floatQuot
  PBQueueDroppedPackets : Int
  PBQueueLength : Int
  PBQueueCapacity : Int
deriving DecidableEq

/-- What one call of `statsPrint` can write on standard output: the text line, the bytes of
the encoded `jsonReport`, or the line `statsPrint error:` with the encoder's error. -/
inductive Output where
  | text (line : textLine)
  | json (bytes : String)
  | error (err : String)
deriving DecidableEq

/-- The function `statsPrint`. The library call `json.Marshal` is the parameter `marshal`
and the clock read by `time.Now()` is the parameter `now`. The result is `none` when the
call panics (an integer division by zero); otherwise it is the value of `*stats` when the
call returns, with the list of what was written, in order. -/
def statsPrint (marshal : jsonReport → Except String String) (now : Int) (stats : packetStats)
    (printJson : String) (qlen qcap : Int) : Option (packetStats × List Output) :=
  if stats.rcvdPkts = 0 then some (stats, [])
  else if printJson = "text" then
    match goDiv stats.totRtt stats.rcvdPkts with
    | none => none
    | some avgRtt =>
      let fastest := stats.minRtt - avgRtt
      let slowest := stats.maxRtt - avgRtt
      some (stats, [Output.text
        { received := stats.rcvdPkts
          dropped := stats.dropPkts
          droppedPct := ⟨stats.dropPkts, stats.rcvdPkts + stats.dropPkts⟩
          reordered := stats.reordPkts
          reorderedPct := ⟨stats.reordPkts, stats.rcvdPkts + stats.dropPkts⟩
          duplicates := stats.dupPkts
          avgRtt := avgRtt
          fastest := fastest
          slowest := slowest
          qlen := qlen
          qcap := qcap
          qdrops := stats.pbdropPkts }])
  else
    match goDiv stats.totRtt stats.rcvdPkts with
    | none => none
    | some avgRtt =>
      let output : jsonReport :=
        { Tag := printJson
          TimestampUtc := now
          ReceivedPackets := stats.rcvdPkts
          DroppedPackets := stats.dropPkts
          DuplicatePackets := stats.dupPkts
          ReorderedPackets := stats.reordPkts
          AverageRTT := ⟨avgRtt, 1000000⟩
          LowestRTT := ⟨stats.minRtt, 1000000⟩
          HighestRTT := ⟨stats.maxRtt, 1000000⟩
          PBQueueDroppedPackets := stats.pbdropPkts
          PBQueueLength := qlen
          PBQueueCapacity := qcap }
      match marshal output with
      | Except.error err => some (stats, [Output.error err])
      | Except.ok b => some (stats, [Output.json b])

/-! ## `statsEngine` -/

/-- The variables of `statsEngine` that live across the iterations of its loop: the two
windows, the tracker, and the cumulative stats behind the pointer `global`. -/
structure Engine where
  workWindow : List payload
  feedWindow : List payload
  serialNumbers : IntMap
  glob : packetStats

/-- The two cases of the `select`: a packet read from the channel `rp`, or a tick of the
ticker, with the clock and the length and capacity of `rp` at that moment. -/
inductive Event where
  | message (m : payload)
  | tick (now qlen qcap : Int)

/-- The state of `statsEngine` when it enters its loop. -/
def statsEngineInit (glob : packetStats) : Engine :=
  { workWindow := [], feedWindow := [], serialNumbers := emptyMap, glob := glob }

/-- One iteration of the loop of `statsEngine`: the new state and what was written on
standard output; `none` when the iteration panics. -/
def statsEngineStep (marshal : jsonReport → Except String String) (printJson : String)
    (s : Engine) : Event → Option (Engine × List Output)
  | Event.message m => some ({ s with feedWindow := s.feedWindow ++ [m] }, [])
  | Event.tick now qlen qcap =>
    let r := process s.workWindow s.feedWindow s.serialNumbers
    let glob := statsUpdate s.glob r.1
    let workWindow := s.feedWindow
    let feedWindow : List payload := []
    match statsPrint marshal now r.1 printJson qlen qcap with
    | none => none
    | some out =>
      some ({ workWindow := workWindow, feedWindow := feedWindow, serialNumbers := r.2,
              glob := glob }, out.2)

/-- The loop of `statsEngine` over a finite sequence of events, from the state `s`: the
state reached and everything written, in order. -/
def statsEngineRun (marshal : jsonReport → Except String String) (printJson : String) :
    Engine → List Event → Option (Engine × List Output)
  | s, [] => some (s, [])
  | s, ev :: evs =>
    match statsEngineStep marshal printJson s ev with
    | none => none
    | some (s1, out1) =>
      match statsEngineRun marshal printJson s1 evs with
      | none => none
      | some (s2, out2) => some (s2, out1 ++ out2)

/-! ## Definitions used to state and prove the properties -/

/-- Number of packets of `vs` that carry identity `id` and serial `s`. -/
def occ (id s : Int) (vs : List payload) : Nat :=
  vs.countP (fun v => decide (v.Id = id ∧ v.Serial = s))

/-- The effect on the interval stats of one iteration of the catch-up loop that found
`found` packets carrying the expected serial (`found` is never negative). -/
def bump (loc : packetStats) (found : Int) : packetStats :=
  if found = 0 then { loc with dropPkts := loc.dropPkts + 1 }
  else if found = 1 then
    { loc with reordPkts := loc.reordPkts + 1, rcvdPkts := loc.rcvdPkts + 1 }
  else
    { loc with
      reordPkts := loc.reordPkts + 1,
      dupPkts := loc.dupPkts + found,
      rcvdPkts := loc.rcvdPkts + 1 }

/-- The four packet counts of `b` minus those of `a`: received, dropped, reordered,
duplicate. -/
def cdiff (a b : packetStats) : Int × Int × Int × Int :=
  (b.rcvdPkts - a.rcvdPkts, b.dropPkts - a.dropPkts, b.reordPkts - a.reordPkts,
    b.dupPkts - a.dupPkts)

/-- The interval stats after the two accumulation statements that open the loop body of
`process`. -/
def accum (m : payload) (loc : packetStats) : packetStats :=
  updateRtt m { loc with pbdropPkts := loc.pbdropPkts + m.Pbdrop }

/-- The least serial carried by a packet of identity `id` in `W`, if there is one. -/
def minSerial (W : List payload) (id : Int) : Option Int :=
  ((W.filter (fun p => decide (p.Id = id))).map payload.Serial).min?

/-- The identity `i` has a tracker entry strictly below the least serial it carries in
`W`. -/
def isBehind (T : IntMap) (W : List payload) (i : Int) : Bool :=
  match T i, minSerial W i with
  | some e, some m => decide (e < m)
  | _, _ => false

/-- The number of drops the second loop of `fastForward` counts at the key `id`. -/
def gapOf (low T : IntMap) (id : Int) : Int :=
  match T id with
  | none => 0
  | some e => if e < mget low id then mget low id - e else 0

/-- The tracker entry of the key `id` after the second loop of `fastForward` visited it. -/
def advance (low T : IntMap) (id : Int) : Option Int :=
  match T id with
  | none => none
  | some e => if e < mget low id then some (mget low id) else some e

/-- The packets of `W` that carry identity `i`, in arrival order. -/
def onlyId (i : Int) (W : List payload) : List payload :=
  W.filter (fun p => decide (p.Id = i))

/-- The packets of `W` that do not carry identity `i`, in arrival order. -/
def exceptId (i : Int) (W : List payload) : List payload :=
  W.filter (fun p => decide (p.Id ≠ i))

/-- Each of the four counts of `a` is the sum of those of `b` and `c`. -/
def SumCounts (a b c : packetStats) : Prop :=
  a.rcvdPkts = b.rcvdPkts + c.rcvdPkts ∧ a.dropPkts = b.dropPkts + c.dropPkts
    ∧ a.reordPkts = b.reordPkts + c.reordPkts ∧ a.dupPkts = b.dupPkts + c.dupPkts

instance SumCounts.decidable (a b c : packetStats) : Decidable (SumCounts a b c) :=
  inferInstanceAs (Decidable (_ ∧ _ ∧ _ ∧ _))

/-- The summand of `fastForward` for one identity. -/
def ffGap (T : IntMap) (W : List payload) (i : Int) : Int :=
  if isBehind T W i = true then (minSerial W i).getD 0 - mget T i else 0

/-- The packets of the list all carry identity `i`, with the consecutive serials `s`,
`s + 1`, ... in that order. -/
def IsRun (i : Int) : Int → List payload → Prop
  | _, [] => True
  | s, p :: rest => p.Id = i ∧ p.Serial = s ∧ IsRun i (s + 1) rest

/-- Whether a list is such a run can be computed. -/
instance IsRun.decidable (i : Int) : (s : Int) → (R : List payload) → Decidable (IsRun i s R)
  | _, [] => isTrue trivial
  | s, p :: rest =>
    have := IsRun.decidable i (s + 1) rest
    inferInstanceAs (Decidable (p.Id = i ∧ p.Serial = s ∧ IsRun i (s + 1) rest))

/-- The greatest serial carried by a packet of identity `id` in `W`, if there is one. -/
def maxSerial (W : List payload) (id : Int) : Option Int :=
  ((W.filter (fun p => decide (p.Id = id))).map payload.Serial).max?

/-- The round-trip time of a packet: receipt minus creation timestamp. -/
def rtt (p : payload) : Int := p.Rts - p.Cts

/-- The three RTT fields of the interval stats: minimum, maximum, total. -/
def rttPart (l : packetStats) : Int × Int × Int := (l.minRtt, l.maxRtt, l.totRtt)

/-- The effect of `updateRtt` on the three RTT fields. -/
def rttStep (r : Int × Int × Int) (m : payload) : Int × Int × Int :=
  (if rtt m < r.1 ∨ r.1 = 0 then rtt m else r.1,
    if rtt m > r.2.1 then rtt m else r.2.1,
    r.2.2 + rtt m)

/-- The `jsonReport` that `statsPrint` fills in structured mode, given the quotient
`totRtt / rcvdPkts`. -/
def reportOf (now : Int) (stats : packetStats) (printJson : String) (qlen qcap avgRtt : Int) :
    jsonReport :=
  { Tag := printJson
    TimestampUtc := now
    ReceivedPackets := stats.rcvdPkts
    DroppedPackets := stats.dropPkts
    DuplicatePackets := stats.dupPkts
    ReorderedPackets := stats.reordPkts
    AverageRTT := ⟨avgRtt, 1000000⟩
    LowestRTT := ⟨stats.minRtt, 1000000⟩
    HighestRTT := ⟨stats.maxRtt, 1000000⟩
    PBQueueDroppedPackets := stats.pbdropPkts
    PBQueueLength := qlen
    PBQueueCapacity := qcap }

/-! ## Lemmas: the map operations -/

@[simp] theorem mset_same (m : IntMap) (k v : Int) : mset m k v k = some v := by
  simp [mset]

theorem mset_other (m : IntMap) {k x : Int} (v : Int) (h : x ≠ k) : mset m k v x = m x := by
  simp [mset, h]

@[simp] theorem mget_mset_same (m : IntMap) (k v : Int) : mget (mset m k v) k = v := by
  simp [mget]

theorem mget_mset_other (m : IntMap) {k x : Int} (v : Int) (h : x ≠ k) :
    mget (mset m k v) x = mget m x := by
  simp [mget, mset_other m v h]

theorem mget_of_some {m : IntMap} {k e : Int} (h : m k = some e) : mget m k = e := by
  simp [mget, h]

/-! ## Lemmas: `findPacket` counts occurrences -/

theorem countMatches_eq (sn : IntMap) (id : Int) (vs : List payload) (n : Int) :
    countMatches sn id vs n = n + occ id (mget sn id) vs := by
  induction vs generalizing n with
  | nil => simp [countMatches, occ]
  | cons v vs ih =>
    have ih' := ih
    unfold countMatches at ih' ⊢
    rw [List.foldl_cons, ih']
    unfold occ
    rw [List.countP_cons]
    by_cases h1 : v.Id = id
    · subst h1
      by_cases h2 : v.Serial = mget sn v.Id
      · simp [h2]; ring
      · simp [h2]
    · simp [h1]

theorem findPacket_eq (sn : IntMap) (W L : List payload) (pos : Nat) (id : Int) :
    findPacket sn W L pos id
      = (occ id (mget sn id) (W.drop pos) : Int) + occ id (mget sn id) L := by
  simp [findPacket, countMatches_eq]

theorem findPacket_nonneg (sn : IntMap) (W L : List payload) (pos : Nat) (id : Int) :
    0 ≤ findPacket sn W L pos id := by
  rw [findPacket_eq]; positivity

/-! ## Lemmas: the catch-up loop -/

theorem catchUp_zero (W L : List payload) (pos : Nat) (m : payload) (st : State) :
    catchUp W L pos m 0 st = st := by
  cases st; rfl

theorem catchUp_succ (W L : List payload) (pos : Nat) (m : payload) (fuel : Nat)
    (loc : packetStats) (sn : IntMap) :
    catchUp W L pos m (fuel + 1) (loc, sn)
      = if m.Serial > mget sn m.Id then
          catchUp W L pos m fuel
            (bump loc (findPacket sn W L pos m.Id), mset sn m.Id (mget sn m.Id + 1))
        else (loc, sn) := by
  have h0 := findPacket_nonneg sn W L pos m.Id
  rw [catchUp]
  by_cases h : m.Serial > mget sn m.Id
  · simp only [h, if_true]
    by_cases h1 : findPacket sn W L pos m.Id = 0
    · simp [h1, bump]
    · by_cases h2 : findPacket sn W L pos m.Id = 1
      · simp [h2, bump]
      · have h3 : findPacket sn W L pos m.Id > 1 := by omega
        simp [h1, h2, h3, bump]
  · simp [h]

theorem cdiff_bump (a b : packetStats) (f : Int) : cdiff a (bump a f) = cdiff b (bump b f) := by
  unfold cdiff bump
  split_ifs <;> simp

theorem cdiff_trans {a b c a' b' c' : packetStats} (h1 : cdiff a b = cdiff a' b')
    (h2 : cdiff b c = cdiff b' c') : cdiff a c = cdiff a' c' := by
  simp only [cdiff, Prod.mk.injEq] at *
  omega

theorem catchUp_other (W L : List payload) (pos : Nat) (m : payload) (fuel : Nat)
    (loc : packetStats) (sn : IntMap) {j : Int} (hj : j ≠ m.Id) :
    (catchUp W L pos m fuel (loc, sn)).2 j = sn j := by
  induction fuel generalizing loc sn with
  | zero => rfl
  | succ n ih =>
    rw [catchUp_succ]
    split_ifs
    · rw [ih, mset_other _ _ hj]
    · rfl

/-- The catch-up loop leaves its identity expecting the serial of the packet: the fuel
that `process` supplies is enough for the loop to run to its exit. -/
theorem catchUp_reaches (W L : List payload) (pos : Nat) (m : payload) (fuel : Nat)
    (loc : packetStats) (sn : IntMap) (e : Int) (he : sn m.Id = some e) (hle : e ≤ m.Serial)
    (hfuel : m.Serial - e ≤ fuel) :
    (catchUp W L pos m fuel (loc, sn)).2 m.Id = some m.Serial := by
  induction fuel generalizing loc sn e with
  | zero =>
    have : e = m.Serial := by omega
    rw [catchUp_zero]; simp [he, this]
  | succ n ih =>
    rw [catchUp_succ, mget_of_some he]
    split_ifs with h
    · exact ih _ _ (e + 1) (by simp) (by omega) (by omega)
    · have : e = m.Serial := by omega
      simp [he, this]

/-- The catch-up loop does not depend on the fuel once the fuel covers the distance between
the packet's serial and the expected serial: the fuel `process` supplies is enough, and
more fuel changes nothing. -/
theorem catchUp_enough_fuel (W L : List payload) (pos : Nat) (m : payload) (fuel : Nat)
    (loc : packetStats) (sn : IntMap) (e : Int) (he : sn m.Id = some e)
    (hfuel : m.Serial - e ≤ fuel) :
    catchUp W L pos m fuel (loc, sn)
      = catchUp W L pos m (m.Serial - e).toNat (loc, sn) := by
  induction fuel generalizing loc sn e with
  | zero =>
    have : (m.Serial - e).toNat = 0 := by omega
    rw [this]
  | succ n ih =>
    by_cases h : m.Serial > e
    · have hn : (m.Serial - e).toNat = (m.Serial - (e + 1)).toNat + 1 := by omega
      rw [hn, catchUp_succ, catchUp_succ, mget_of_some he, if_pos h, if_pos h]
      exact ih _ _ (e + 1) (mset_same _ _ _) (by omega)
    · have hn : (m.Serial - e).toNat = 0 := by omega
      rw [hn, catchUp_succ, mget_of_some he, if_neg h, catchUp_zero]

/-- Every entry of the tracker is kept by the catch-up loop and none decreases, whatever
the fuel. -/
theorem catchUp_mono (W L : List payload) (pos : Nat) (m : payload) (fuel : Nat)
    (loc : packetStats) (sn : IntMap) (j e : Int) (he : sn j = some e) :
    ∃ e', (catchUp W L pos m fuel (loc, sn)).2 j = some e' ∧ e ≤ e' := by
  induction fuel generalizing loc sn e with
  | zero => exact ⟨e, by rw [catchUp_zero]; exact he, le_refl e⟩
  | succ n ih =>
    rw [catchUp_succ]
    split_ifs with h
    · by_cases hj : j = m.Id
      · subst hj
        obtain ⟨e', h1, h2⟩ := ih (bump loc (findPacket sn W L pos m.Id))
          (mset sn m.Id (mget sn m.Id + 1)) (e + 1) (by simp [mget_of_some he])
        exact ⟨e', h1, by omega⟩
      · exact ih _ _ e (by rw [mset_other _ _ hj]; exact he)
    · exact ⟨e, he, le_refl e⟩

/-- The catch-up loops of two runs that agree on the expected serial of the packet's
identity and on the number of packets of that identity ahead, for every serial, add the
same counts and end on the same expected serial. -/
theorem catchUp_congr (W L W' L' : List payload) (pos pos' : Nat) (m : payload) (fuel : Nat)
    (loc loc' : packetStats) (sn sn' : IntMap) (hsn : sn m.Id = sn' m.Id)
    (hocc : ∀ s, occ m.Id s (W.drop pos) + occ m.Id s L
      = occ m.Id s (W'.drop pos') + occ m.Id s L') :
    cdiff loc (catchUp W L pos m fuel (loc, sn)).1
        = cdiff loc' (catchUp W' L' pos' m fuel (loc', sn')).1
      ∧ (catchUp W L pos m fuel (loc, sn)).2 m.Id
        = (catchUp W' L' pos' m fuel (loc', sn')).2 m.Id := by
  induction fuel generalizing loc loc' sn sn' with
  | zero => simp [catchUp_zero, cdiff, hsn]
  | succ n ih =>
    have hg : mget sn m.Id = mget sn' m.Id := by simp [mget, hsn]
    have hf : findPacket sn W L pos m.Id = findPacket sn' W' L' pos' m.Id := by
      rw [findPacket_eq, findPacket_eq, ← hg]
      have := hocc (mget sn m.Id)
      omega
    rw [catchUp_succ, catchUp_succ, ← hg, ← hf]
    split_ifs with h
    · obtain ⟨h1, h2⟩ := ih (bump loc (findPacket sn W L pos m.Id))
        (bump loc' (findPacket sn W L pos m.Id))
        (mset sn m.Id (mget sn m.Id + 1)) (mset sn' m.Id (mget sn m.Id + 1)) (by simp)
      exact ⟨cdiff_trans (cdiff_bump loc loc' _) h1, h2⟩
    · simp [cdiff, hsn]

/-! ## Lemmas: the loop body -/

@[simp] theorem updateRtt_rcvdPkts (m : payload) (loc : packetStats) :
    (updateRtt m loc).rcvdPkts = loc.rcvdPkts := by
  unfold updateRtt; dsimp only; split_ifs <;> rfl

@[simp] theorem updateRtt_dropPkts (m : payload) (loc : packetStats) :
    (updateRtt m loc).dropPkts = loc.dropPkts := by
  unfold updateRtt; dsimp only; split_ifs <;> rfl

@[simp] theorem updateRtt_reordPkts (m : payload) (loc : packetStats) :
    (updateRtt m loc).reordPkts = loc.reordPkts := by
  unfold updateRtt; dsimp only; split_ifs <;> rfl

@[simp] theorem updateRtt_dupPkts (m : payload) (loc : packetStats) :
    (updateRtt m loc).dupPkts = loc.dupPkts := by
  unfold updateRtt; dsimp only; split_ifs <;> rfl

theorem cdiff_accum (m : payload) (loc : packetStats) : cdiff loc (accum m loc) = (0, 0, 0, 0) := by
  simp [cdiff, accum]

theorem processPacket_none (W L : List payload) (pos : Nat) (m : payload) (loc : packetStats)
    (sn : IntMap) (h : sn m.Id = none) :
    processPacket W L pos m (loc, sn)
      = ({ accum m loc with rcvdPkts := (accum m loc).rcvdPkts + 1 },
          mset sn m.Id (m.Serial + 1)) := by
  simp [processPacket, h, accum]

theorem processPacket_late (W L : List payload) (pos : Nat) (m : payload) (loc : packetStats)
    (sn : IntMap) (e : Int) (he : sn m.Id = some e) (h : m.Serial < e) :
    processPacket W L pos m (loc, sn)
      = ({ accum m loc with rcvdPkts := (accum m loc).rcvdPkts + 1 }, sn) := by
  simp [processPacket, he, accum, mget_of_some he, h]

theorem processPacket_ahead (W L : List payload) (pos : Nat) (m : payload) (loc : packetStats)
    (sn : IntMap) (e : Int) (he : sn m.Id = some e) (h : e ≤ m.Serial) :
    processPacket W L pos m (loc, sn)
      = ({ (catchUp W L pos m (m.Serial - e).toNat (accum m loc, sn)).1 with
            rcvdPkts := (catchUp W L pos m (m.Serial - e).toNat (accum m loc, sn)).1.rcvdPkts + 1,
            dupPkts := (catchUp W L pos m (m.Serial - e).toNat (accum m loc, sn)).1.dupPkts
              + ((occ m.Id m.Serial (W.drop (pos + 1)) : Int) + occ m.Id m.Serial L) },
          mset (catchUp W L pos m (m.Serial - e).toNat (accum m loc, sn)).2 m.Id
            (m.Serial + 1)) := by
  have hr := catchUp_reaches W L pos m (m.Serial - e).toNat (accum m loc) sn e he h
    (by omega)
  have hn : ¬ m.Serial < e := by omega
  simp [processPacket, he, accum, mget_of_some he, hn, findPacket_eq]
  simp only [accum] at hr
  simp [mget_of_some hr]

theorem processPacket_other (W L : List payload) (pos : Nat) (m : payload) (st : State)
    {j : Int} (hj : j ≠ m.Id) : (processPacket W L pos m st).2 j = st.2 j := by
  obtain ⟨loc, sn⟩ := st
  cases he : sn m.Id with
  | none => rw [processPacket_none _ _ _ _ _ _ he]; exact mset_other _ _ hj
  | some e =>
    by_cases h : m.Serial < e
    · rw [processPacket_late _ _ _ _ _ _ e he h]
    · rw [processPacket_ahead _ _ _ _ _ _ e he (by omega)]
      show mset _ _ _ j = sn j
      rw [mset_other _ _ hj, catchUp_other _ _ _ _ _ _ _ hj]

/-- The entry of the packet's identity after the loop body: the serial plus one for a first
packet, otherwise the larger of the old entry and the serial plus one. -/
theorem processPacket_self (W L : List payload) (pos : Nat) (m : payload) (st : State) :
    (processPacket W L pos m st).2 m.Id
      = some (match st.2 m.Id with
          | none => m.Serial + 1
          | some e => max e (m.Serial + 1)) := by
  obtain ⟨loc, sn⟩ := st
  cases he : sn m.Id with
  | none => rw [processPacket_none _ _ _ _ _ _ he]; simp [he]
  | some e =>
    by_cases h : m.Serial < e
    · rw [processPacket_late _ _ _ _ _ _ e he h]
      simp only [he]
      rw [max_eq_left (by omega)]
    · rw [processPacket_ahead _ _ _ _ _ _ e he (by omega)]
      simp only [mset_same, he]
      rw [max_eq_right (by omega)]

theorem processPacket_mono (W L : List payload) (pos : Nat) (m : payload) (st : State)
    (j e : Int) (he : st.2 j = some e) :
    ∃ e', (processPacket W L pos m st).2 j = some e' ∧ e ≤ e' := by
  by_cases hj : j = m.Id
  · subst hj
    rw [processPacket_self, he]
    exact ⟨_, rfl, le_max_left _ _⟩
  · exact ⟨e, by rw [processPacket_other _ _ _ _ _ hj]; exact he, le_refl e⟩

/-- The loop bodies of two runs that agree on the entry of the packet's identity and on the
packets of that identity ahead add the same counts and leave the same entry. -/
theorem processPacket_congr (W L W' L' : List payload) (pos pos' : Nat) (m : payload)
    (loc loc' : packetStats) (sn sn' : IntMap) (hsn : sn m.Id = sn' m.Id)
    (hocc : ∀ s, occ m.Id s (W.drop pos) + occ m.Id s L
      = occ m.Id s (W'.drop pos') + occ m.Id s L')
    (hocc1 : ∀ s, occ m.Id s (W.drop (pos + 1)) + occ m.Id s L
      = occ m.Id s (W'.drop (pos' + 1)) + occ m.Id s L') :
    cdiff loc (processPacket W L pos m (loc, sn)).1
        = cdiff loc' (processPacket W' L' pos' m (loc', sn')).1
      ∧ (processPacket W L pos m (loc, sn)).2 m.Id
        = (processPacket W' L' pos' m (loc', sn')).2 m.Id := by
  refine ⟨?_, by rw [processPacket_self, processPacket_self]; simp only [hsn]⟩
  cases he : sn m.Id with
  | none =>
    rw [processPacket_none _ _ _ _ _ _ he, processPacket_none _ _ _ _ _ _ (hsn ▸ he)]
    simp [cdiff, accum]
  | some e =>
    by_cases h : m.Serial < e
    · rw [processPacket_late _ _ _ _ _ _ e he h, processPacket_late _ _ _ _ _ _ e (hsn ▸ he) h]
      simp [cdiff, accum]
    · rw [processPacket_ahead _ _ _ _ _ _ e he (by omega),
        processPacket_ahead _ _ _ _ _ _ e (hsn ▸ he) (by omega)]
      have hc := (catchUp_congr W L W' L' pos pos' m (m.Serial - e).toNat (accum m loc)
        (accum m loc') sn sn' hsn hocc).1
      have h1 := hocc1 m.Serial
      have ha := cdiff_accum m loc
      have ha' := cdiff_accum m loc'
      simp only [cdiff, Prod.mk.injEq] at hc ha ha' ⊢
      omega

/-! ## Lemmas: `fastForward` -/

theorem lowestStep_apply (low : IntMap) (v : payload) (i : Int) :
    lowestStep low v i
      = if i = v.Id then
          some (match low i with
            | none => v.Serial
            | some x => min x v.Serial)
        else low i := by
  unfold lowestStep
  by_cases hi : i = v.Id
  · subst hi
    cases h : low v.Id with
    | none => simp
    | some x =>
      simp only [mget_of_some h, if_true]
      by_cases hlt : v.Serial < x
      · simp [hlt, min_eq_right (le_of_lt hlt)]
      · simp [hlt, h, min_eq_left (not_lt.mp hlt)]
  · cases h : low v.Id with
    | none => simp [hi, mset_other _ _ hi]
    | some x =>
      simp only [hi, if_false]
      split_ifs
      · exact mset_other _ _ hi
      · rfl

theorem minSerial_nil (i : Int) : minSerial [] i = none := by
  simp [minSerial]

theorem minSerial_cons (v : payload) (W : List payload) (i : Int) :
    minSerial (v :: W) i
      = if v.Id = i then some ((minSerial W i).elim v.Serial (min v.Serial))
        else minSerial W i := by
  unfold minSerial
  by_cases h : v.Id = i
  · simp [h, List.min?_cons]
  · simp [h]

theorem foldl_lowestStep (W : List payload) (low : IntMap) (i : Int) :
    W.foldl lowestStep low i
      = match low i with
        | none => minSerial W i
        | some x => some ((minSerial W i).elim x (min x)) := by
  induction W generalizing low with
  | nil => cases h : low i <;> simp [minSerial_nil, h]
  | cons v W ih =>
    rw [List.foldl_cons, ih, lowestStep_apply, minSerial_cons]
    by_cases hi : i = v.Id
    · subst hi
      cases h : low v.Id with
      | none => simp
      | some x =>
        cases h2 : minSerial W v.Id with
        | none => simp
        | some y => simp [min_assoc]
    · have hi' : ¬ v.Id = i := fun h => hi h.symm
      simp [hi, hi']

/-- The map `lowest` built by the first loop of `fastForward` holds, for each identity, the
least serial it carries in the window. -/
theorem lowestOf_eq (W : List payload) (i : Int) : lowestOf W i = minSerial W i := by
  unfold lowestOf
  rw [foldl_lowestStep]
  rfl

theorem minSerial_ne_none_iff (W : List payload) (i : Int) :
    minSerial W i ≠ none ↔ i ∈ W.map payload.Id := by
  induction W with
  | nil => simp [minSerial_nil]
  | cons v W ih =>
    rw [minSerial_cons]
    by_cases h : v.Id = i
    · simp [h]
    · have h' : ¬ i = v.Id := fun hh => h hh.symm
      simp [h, h', ih]

/-- The list `lowestKeys` enumerates exactly the keys of the map `lowest`, each once. -/
theorem mem_lowestKeys (W : List payload) (i : Int) :
    i ∈ lowestKeys W ↔ lowestOf W i ≠ none := by
  rw [lowestOf_eq, minSerial_ne_none_iff, lowestKeys, List.mem_dedup]

theorem lowestKeys_nodup (W : List payload) : (lowestKeys W).Nodup :=
  List.nodup_dedup _

theorem fastForwardStep_eq (low : IntMap) (d : Int) (T : IntMap) (id : Int) :
    fastForwardStep low (d, T) id
      = (d + gapOf low T id, fun i => if i = id then advance low T id else T i) := by
  have hfun : ∀ o : Option Int, T id = o → T = fun i => if i = id then o else T i := by
    intro o ho
    funext i
    by_cases hi : i = id
    · simp [hi, ho]
    · simp [hi]
  cases h : T id with
  | none =>
    simp only [fastForwardStep, gapOf, advance, h, add_zero]
    exact Prod.ext rfl (hfun none h)
  | some e =>
    simp only [fastForwardStep, gapOf, advance, h, mget_of_some h]
    split_ifs with hlt
    · rfl
    · simp only [add_zero]
      exact Prod.ext rfl (hfun (some e) h)

theorem foldl_fastForwardStep (low : IntMap) (keys : List Int) (hnd : keys.Nodup) (d : Int)
    (T : IntMap) :
    (keys.foldl (fastForwardStep low) (d, T)).1 = d + (keys.map (gapOf low T)).sum
      ∧ ∀ i, (keys.foldl (fastForwardStep low) (d, T)).2 i
          = if i ∈ keys then advance low T i else T i := by
  induction keys generalizing d T with
  | nil => simp
  | cons k ks ih =>
    obtain ⟨hk, hks⟩ := List.nodup_cons.mp hnd
    rw [List.foldl_cons, fastForwardStep_eq]
    obtain ⟨h1, h2⟩ := ih hks (d + gapOf low T k)
      (fun i => if i = k then advance low T k else T i)
    have hne : ∀ i, i ∈ ks → i ≠ k := fun i hi hik => hk (hik ▸ hi)
    constructor
    · have hmap : ks.map (gapOf low (fun i => if i = k then advance low T k else T i))
          = ks.map (gapOf low T) :=
        List.map_congr_left (fun i hi => by simp [gapOf, hne i hi])
      rw [h1, hmap, List.map_cons, List.sum_cons, add_assoc]
    · intro i
      rw [h2 i]
      by_cases hi : i ∈ ks
      · simp [hi, advance, hne i hi]
      · by_cases hik : i = k
        · subst hik; simp [hi]
        · simp [hi, hik]

/-- The order in which the second loop of `fastForward` visits the keys of `lowest` does not
change its result. -/
theorem fastForwardOver_perm (keys keys' : List Int) (hp : keys.Perm keys') (hnd : keys.Nodup)
    (T : IntMap) (W : List payload) :
    fastForwardOver keys T W = fastForwardOver keys' T W := by
  unfold fastForwardOver
  obtain ⟨h1, h2⟩ := foldl_fastForwardStep (lowestOf W) keys hnd 0 T
  obtain ⟨h1', h2'⟩ := foldl_fastForwardStep (lowestOf W) keys' (hp.nodup_iff.mp hnd) 0 T
  apply Prod.ext
  · rw [h1, h1', (hp.map _).sum_eq]
  · funext i
    rw [h2, h2']
    simp only [hp.mem_iff]

theorem gapOf_lowestOf (T : IntMap) (W : List payload) (i : Int) :
    gapOf (lowestOf W) T i
      = if isBehind T W i = true then (minSerial W i).getD 0 - mget T i
        else if minSerial W i = none ∧ (∃ e, T i = some e ∧ e < 0) then - mget T i else 0 := by
  unfold gapOf isBehind mget
  rw [lowestOf_eq]
  cases h : T i with
  | none => simp
  | some e =>
    cases h2 : minSerial W i with
    | none => simp
    | some x => simp

theorem advance_lowestOf (T : IntMap) (W : List payload) (i : Int) (hi : i ∈ W.map payload.Id) :
    advance (lowestOf W) T i = if isBehind T W i = true then minSerial W i else T i := by
  unfold advance isBehind mget
  rw [lowestOf_eq]
  have := (minSerial_ne_none_iff W i).mpr hi
  cases h : T i with
  | none => simp
  | some e =>
    cases h2 : minSerial W i with
    | none => exact absurd h2 this
    | some x => simp

theorem isBehind_iff (T : IntMap) (W : List payload) (i : Int) :
    isBehind T W i = true ↔ ∃ e m, T i = some e ∧ minSerial W i = some m ∧ e < m := by
  unfold isBehind
  cases h1 : T i with
  | none => simp
  | some e =>
    cases h2 : minSerial W i with
    | none => simp
    | some m => simp

theorem isBehind_mem (T : IntMap) (W : List payload) (i : Int) (h : isBehind T W i = true) :
    i ∈ W.map payload.Id := by
  rw [← minSerial_ne_none_iff]
  intro hn
  unfold isBehind at h
  rw [hn] at h
  cases h2 : T i <;> simp [h2] at h

/-- The tracker after `fastForward`, entry by entry. -/
theorem fastForward_snd (T : IntMap) (W : List payload) (i : Int) :
    (fastForward T W).2 i = if isBehind T W i = true then minSerial W i else T i := by
  unfold fastForward fastForwardOver
  rw [(foldl_fastForwardStep (lowestOf W) (lowestKeys W) (lowestKeys_nodup W) 0 T).2 i]
  by_cases hi : i ∈ W.map payload.Id
  · have : i ∈ lowestKeys W := by rw [lowestKeys, List.mem_dedup]; exact hi
    rw [if_pos this, advance_lowestOf T W i hi]
  · have : i ∉ lowestKeys W := by rw [lowestKeys, List.mem_dedup]; exact hi
    have hb : ¬ isBehind T W i = true := fun h => hi (isBehind_mem T W i h)
    rw [if_neg this, if_neg hb]

/-- The value returned by `fastForward`. -/
theorem fastForward_fst (T : IntMap) (W : List payload) :
    (fastForward T W).1
      = Finset.sum ((W.map payload.Id).toFinset.filter (fun i => isBehind T W i = true))
          (fun i => (minSerial W i).getD 0 - mget T i) := by
  unfold fastForward fastForwardOver
  rw [(foldl_fastForwardStep (lowestOf W) (lowestKeys W) (lowestKeys_nodup W) 0 T).1, zero_add,
    Finset.sum_filter, lowestKeys, ← List.sum_toFinset _ (List.nodup_dedup _),
    List.toFinset_eq_iff_perm_dedup.mpr (List.Perm.of_eq List.dedup_idem)]
  apply Finset.sum_congr rfl
  intro i hi
  rw [gapOf_lowestOf]
  have hm : minSerial W i ≠ none := (minSerial_ne_none_iff W i).mpr (List.mem_toFinset.mp hi)
  simp [hm]

/-! ## Lemmas: the loop over the window -/

theorem processLoop_nil (W L : List payload) (pos : Nat) (st : State) :
    processLoop W L pos [] st = st := by
  unfold processLoop; rfl

theorem processLoop_cons (W L : List payload) (pos : Nat) (m : payload) (rest : List payload)
    (st : State) :
    processLoop W L pos (m :: rest) st
      = processLoop W L (pos + 1) rest (processPacket W L pos m st) := by
  rw [processLoop]

theorem processLoop_mono (W L : List payload) (rest : List payload) (pos : Nat) (st : State)
    (j e : Int) (he : st.2 j = some e) :
    ∃ e', (processLoop W L pos rest st).2 j = some e' ∧ e ≤ e' := by
  induction rest generalizing pos st e with
  | nil => exact ⟨e, by rw [processLoop_nil]; exact he, le_refl e⟩
  | cons m rest ih =>
    rw [processLoop_cons]
    obtain ⟨e1, h1, h2⟩ := processPacket_mono W L pos m st j e he
    obtain ⟨e2, h3, h4⟩ := ih (pos + 1) (processPacket W L pos m st) e1 h1
    exact ⟨e2, h3, le_trans h2 h4⟩

theorem processLoop_has (W L : List payload) (rest : List payload) (pos : Nat) (st : State)
    (p : payload) (hp : p ∈ rest) : (processLoop W L pos rest st).2 p.Id ≠ none := by
  induction rest generalizing pos st with
  | nil => simp at hp
  | cons m rest ih =>
    rw [processLoop_cons]
    rcases List.mem_cons.mp hp with h | h
    · subst h
      obtain ⟨e', h1, _⟩ := processLoop_mono W L rest (pos + 1) (processPacket W L pos p st)
        p.Id _ (processPacket_self W L pos p st)
      rw [h1]; simp
    · exact ih (pos + 1) _ h

theorem fastForward_mono (T : IntMap) (W : List payload) (j e : Int) (he : T j = some e) :
    ∃ e', (fastForward T W).2 j = some e' ∧ e ≤ e' := by
  rw [fastForward_snd]
  by_cases hb : isBehind T W j = true
  · rw [if_pos hb]
    unfold isBehind at hb
    rw [he] at hb
    cases hm : minSerial W j with
    | none => simp [hm] at hb
    | some x =>
      simp [hm] at hb
      exact ⟨x, rfl, le_of_lt hb⟩
  · rw [if_neg hb]
    exact ⟨e, he, le_refl e⟩

/-! ## Lemmas: splitting a run by identity -/

theorem SumCounts.step_left {a b c a' b' : packetStats} (h : SumCounts a b c)
    (hd : cdiff a a' = cdiff b b') : SumCounts a' b' c := by
  simp only [SumCounts, cdiff, Prod.mk.injEq] at *
  omega

theorem SumCounts.step_right {a b c a' c' : packetStats} (h : SumCounts a b c)
    (hd : cdiff a a' = cdiff c c') : SumCounts a' b c' := by
  simp only [SumCounts, cdiff, Prod.mk.injEq] at *
  omega

theorem occ_onlyId (i s : Int) (R : List payload) : occ i s (onlyId i R) = occ i s R := by
  unfold occ onlyId
  rw [List.countP_filter]
  congr 1
  funext p
  by_cases h : p.Id = i <;> simp [h]

theorem occ_exceptId {i j : Int} (s : Int) (R : List payload) (h : j ≠ i) :
    occ j s (exceptId i R) = occ j s R := by
  unfold occ exceptId
  rw [List.countP_filter]
  congr 1
  funext p
  by_cases h2 : p.Id = j
  · have : p.Id ≠ i := h2 ▸ h
    simp [h2, this, h]
  · simp [h2]

theorem drop_succ_of_drop_eq_cons {W : List payload} {pos : Nat} {m : payload}
    {rest : List payload} (h : W.drop pos = m :: rest) : W.drop (pos + 1) = rest := by
  rw [← List.tail_drop, h, List.tail_cons]

/-- Splitting the loop of `process` by identity: the run over the whole window adds the
counts of the run over the packets of `i` and of the run over the other packets, and its
tracker is that of the first run at `i` and that of the second elsewhere. -/
theorem processLoop_split (i : Int) (W L W1 L1 W2 L2 : List payload)
    (hL1 : ∀ s, occ i s L1 = occ i s L) (hL2 : ∀ j s, j ≠ i → occ j s L2 = occ j s L)
    (rest : List payload) (pos pos1 pos2 : Nat) (st st1 st2 : State)
    (hW : W.drop pos = rest) (hW1 : W1.drop pos1 = onlyId i rest)
    (hW2 : W2.drop pos2 = exceptId i rest)
    (hc : SumCounts st.1 st1.1 st2.1) (hi : st.2 i = st1.2 i)
    (hj : ∀ j, j ≠ i → st.2 j = st2.2 j) :
    SumCounts (processLoop W L pos rest st).1 (processLoop W1 L1 pos1 (onlyId i rest) st1).1
        (processLoop W2 L2 pos2 (exceptId i rest) st2).1
      ∧ (processLoop W L pos rest st).2 i = (processLoop W1 L1 pos1 (onlyId i rest) st1).2 i
      ∧ ∀ j, j ≠ i → (processLoop W L pos rest st).2 j
          = (processLoop W2 L2 pos2 (exceptId i rest) st2).2 j := by
  induction rest generalizing pos pos1 pos2 st st1 st2 with
  | nil =>
    simp only [onlyId, exceptId, List.filter_nil, processLoop_nil]
    exact ⟨hc, hi, hj⟩
  | cons m rest ih =>
    have hWs := drop_succ_of_drop_eq_cons hW
    obtain ⟨loc, sn⟩ := st
    obtain ⟨loc1, sn1⟩ := st1
    obtain ⟨loc2, sn2⟩ := st2
    by_cases hm : m.Id = i
    · have e1 : onlyId i (m :: rest) = m :: onlyId i rest := by simp [onlyId, hm]
      have e2 : exceptId i (m :: rest) = exceptId i rest := by simp [exceptId, hm]
      rw [e1] at hW1
      rw [e2] at hW2
      have hW1s := drop_succ_of_drop_eq_cons hW1
      rw [e1, e2, processLoop_cons, processLoop_cons]
      have hcg := processPacket_congr W L W1 L1 pos pos1 m loc loc1 sn sn1 (by rw [hm]; exact hi)
        (by
          intro s
          rw [hm, hW, hW1, hL1, ← e1, occ_onlyId])
        (by
          intro s
          rw [hm, hWs, hW1s, hL1, occ_onlyId])
      rw [hm] at hcg
      refine ih (pos + 1) (pos1 + 1) pos2 _ _ _ hWs hW1s hW2 (hc.step_left hcg.1) hcg.2 ?_
      intro j hji
      rw [processPacket_other _ _ _ _ _ (by rw [hm]; exact hji)]
      exact hj j hji
    · have e1 : onlyId i (m :: rest) = onlyId i rest := by simp [onlyId, hm]
      have e2 : exceptId i (m :: rest) = m :: exceptId i rest := by simp [exceptId, hm]
      rw [e1] at hW1
      rw [e2] at hW2
      have hW2s := drop_succ_of_drop_eq_cons hW2
      rw [e1, e2, processLoop_cons, processLoop_cons]
      have hcg := processPacket_congr W L W2 L2 pos pos2 m loc loc2 sn sn2 (hj m.Id hm)
        (by
          intro s
          rw [hW, hW2, hL2 _ _ hm, ← e2, occ_exceptId _ _ hm])
        (by
          intro s
          rw [hWs, hW2s, hL2 _ _ hm, occ_exceptId _ _ hm])
      refine ih (pos + 1) pos1 (pos2 + 1) _ _ _ hWs hW1 hW2s (hc.step_right hcg.1) ?_ ?_
      · rw [processPacket_other _ _ _ _ _ (fun h => hm h.symm)]
        exact hi
      · intro j hji
        by_cases hjm : j = m.Id
        · rw [hjm]; exact hcg.2
        · rw [processPacket_other _ _ _ _ _ hjm, processPacket_other _ _ _ _ _ hjm]
          exact hj j hji

theorem minSerial_onlyId_self (i : Int) (W : List payload) :
    minSerial (onlyId i W) i = minSerial W i := by
  unfold minSerial onlyId
  rw [List.filter_filter]
  simp

theorem minSerial_onlyId_other {i j : Int} (W : List payload) (h : j ≠ i) :
    minSerial (onlyId i W) j = none := by
  by_contra hn
  have := (minSerial_ne_none_iff _ _).mp hn
  simp only [onlyId, List.mem_map, List.mem_filter, decide_eq_true_eq] at this
  obtain ⟨p, ⟨_, hp⟩, hp2⟩ := this
  exact h (hp2 ▸ hp)

theorem minSerial_exceptId_self (i : Int) (W : List payload) :
    minSerial (exceptId i W) i = none := by
  by_contra hn
  have := (minSerial_ne_none_iff _ _).mp hn
  simp only [exceptId, List.mem_map, List.mem_filter, decide_eq_true_eq] at this
  obtain ⟨p, ⟨_, hp⟩, hp2⟩ := this
  exact hp hp2

theorem minSerial_exceptId_other {i j : Int} (W : List payload) (h : j ≠ i) :
    minSerial (exceptId i W) j = minSerial W j := by
  unfold minSerial exceptId
  rw [List.filter_filter]
  congr 2
  apply List.filter_congr
  intro p _
  by_cases hp : p.Id = j
  · have : p.Id ≠ i := hp ▸ h
    simp [hp, this, h]
  · simp [hp]

theorem isBehind_none_right (T : IntMap) (W : List payload) (i : Int)
    (h : minSerial W i = none) : isBehind T W i = false := by
  unfold isBehind
  rw [h]
  cases T i <;> rfl

theorem ffGap_split (T : IntMap) (W : List payload) (i k : Int) :
    ffGap T W k = ffGap T (onlyId i W) k + ffGap T (exceptId i W) k := by
  unfold ffGap
  by_cases hk : k = i
  · subst hk
    rw [isBehind_none_right T (exceptId k W) k (minSerial_exceptId_self k W)]
    simp [isBehind, minSerial_onlyId_self]
  · rw [isBehind_none_right T (onlyId i W) k (minSerial_onlyId_other W hk)]
    simp [isBehind, minSerial_exceptId_other W hk]

theorem fastForward_fst_superset (T : IntMap) (W : List payload) (S : Finset Int)
    (hS : (W.map payload.Id).toFinset ⊆ S) :
    (fastForward T W).1 = Finset.sum S (ffGap T W) := by
  rw [fastForward_fst, Finset.sum_filter]
  apply Finset.sum_subset hS
  intro k _ hk
  have : ¬ isBehind T W k = true := fun h => hk (List.mem_toFinset.mpr (isBehind_mem T W k h))
  rw [if_neg this]

theorem fastForward_split (T : IntMap) (W : List payload) (i : Int) :
    (fastForward T W).1 = (fastForward T (onlyId i W)).1 + (fastForward T (exceptId i W)).1
      ∧ (fastForward T W).2 i = (fastForward T (onlyId i W)).2 i
      ∧ ∀ j, j ≠ i → (fastForward T W).2 j = (fastForward T (exceptId i W)).2 j := by
  refine ⟨?_, ?_, ?_⟩
  · have hsub : ∀ (p : payload → Bool),
        ((W.filter p).map payload.Id).toFinset ⊆ (W.map payload.Id).toFinset := by
      intro p k hk
      simp only [List.mem_toFinset, List.mem_map, List.mem_filter] at hk ⊢
      obtain ⟨q, ⟨hq, _⟩, hq2⟩ := hk
      exact ⟨q, hq, hq2⟩
    rw [fastForward_fst_superset T W _ (Finset.Subset.refl _),
      fastForward_fst_superset T (onlyId i W) _ (hsub _),
      fastForward_fst_superset T (exceptId i W) _ (hsub _), ← Finset.sum_add_distrib]
    exact Finset.sum_congr rfl (fun k _ => ffGap_split T W i k)
  · rw [fastForward_snd, fastForward_snd]
    simp [isBehind, minSerial_onlyId_self]
  · intro j hj
    rw [fastForward_snd, fastForward_snd]
    simp [isBehind, minSerial_exceptId_other W hj]

/-! ## Lemmas: runs of consecutive serials -/

theorem occ_eq_zero (i s : Int) (R : List payload)
    (h : ∀ p ∈ R, p.Id = i → p.Serial ≠ s) : occ i s R = 0 := by
  unfold occ
  rw [List.countP_eq_zero]
  intro p hp
  simp only [decide_eq_true_eq, not_and]
  exact h p hp

theorem occ_nil (i s : Int) : occ i s [] = 0 := rfl

theorem IsRun.serial_ge {i s : Int} {R : List payload} (h : IsRun i s R) :
    ∀ p ∈ R, s ≤ p.Serial := by
  induction R generalizing s with
  | nil => intro p hp; simp at hp
  | cons q R ih =>
    obtain ⟨_, h2, h3⟩ := h
    intro p hp
    rcases List.mem_cons.mp hp with h | h
    · rw [h, h2]
    · have := ih h3 p h
      omega

theorem IsRun.id_eq {i s : Int} {R : List payload} (h : IsRun i s R) :
    ∀ p ∈ R, p.Id = i := by
  induction R generalizing s with
  | nil => intro p hp; simp at hp
  | cons q R ih =>
    obtain ⟨h1, _, h3⟩ := h
    intro p hp
    rcases List.mem_cons.mp hp with h | h
    · rw [h, h1]
    · exact ih h3 p h

/-- The loop of `process` over a run of consecutive serials of one identity that starts at
the expected serial (or is the first sight of the identity), when no later packet of the
window carries a serial of the run: every packet counts as received, nothing as dropped or
reordered, and the identity ends expecting the serial after the run. -/
theorem processLoop_run (i : Int) (W L : List payload) (rest tail : List payload) (s : Int)
    (pos : Nat) (loc : packetStats) (sn : IntMap) (hW : W.drop pos = rest ++ tail)
    (hrun : IsRun i s rest) (htail : ∀ p ∈ tail, p.Id = i → s + rest.length ≤ p.Serial)
    (hsn : sn i = none ∨ sn i = some s) :
    (processLoop W L pos rest (loc, sn)).1.rcvdPkts = loc.rcvdPkts + rest.length
      ∧ (processLoop W L pos rest (loc, sn)).1.dropPkts = loc.dropPkts
      ∧ (processLoop W L pos rest (loc, sn)).1.reordPkts = loc.reordPkts
      ∧ (L = [] → (processLoop W L pos rest (loc, sn)).1.dupPkts = loc.dupPkts)
      ∧ (rest ≠ [] → (processLoop W L pos rest (loc, sn)).2 i = some (s + rest.length))
      ∧ (∀ j, j ≠ i → (processLoop W L pos rest (loc, sn)).2 j = sn j) := by
  induction rest generalizing s pos loc sn with
  | nil => simp [processLoop_nil]
  | cons m rest ih =>
    obtain ⟨hmi, hms, hrest⟩ := hrun
    have hWs : W.drop (pos + 1) = rest ++ tail := drop_succ_of_drop_eq_cons hW
    have hocc : occ i s (rest ++ tail) = 0 := by
      apply occ_eq_zero
      intro p hp hpi
      rcases List.mem_append.mp hp with h | h
      · have := hrest.serial_ge p h
        omega
      · have := htail p h hpi
        simp only [List.length_cons, Nat.cast_add, Nat.cast_one] at this
        omega
    have htail' : ∀ p ∈ tail, p.Id = i → s + 1 + rest.length ≤ p.Serial := by
      intro p hp hpi
      have := htail p hp hpi
      simp only [List.length_cons, Nat.cast_add, Nat.cast_one] at this
      omega
    rw [processLoop_cons]
    have key : (processPacket W L pos m (loc, sn)).2 = mset sn i (s + 1)
        ∧ (processPacket W L pos m (loc, sn)).1.rcvdPkts = loc.rcvdPkts + 1
        ∧ (processPacket W L pos m (loc, sn)).1.dropPkts = loc.dropPkts
        ∧ (processPacket W L pos m (loc, sn)).1.reordPkts = loc.reordPkts
        ∧ (L = [] → (processPacket W L pos m (loc, sn)).1.dupPkts = loc.dupPkts) := by
      rcases hsn with h | h
      · rw [processPacket_none _ _ _ _ _ _ (hmi ▸ h), hmi, hms]
        simp [accum]
      · rw [processPacket_ahead _ _ _ _ _ _ s (hmi ▸ h) (by omega), hms, sub_self,
          Int.toNat_zero, catchUp_zero, hWs, hmi, hocc]
        refine ⟨rfl, by simp [accum], by simp [accum], by simp [accum], ?_⟩
        intro hL
        simp [accum, hL, occ_nil]
    obtain ⟨hpp, h1, h2, h3, h4⟩ := key
    obtain ⟨g1, g2, g3, g4, g5, g6⟩ := ih (s + 1) (pos + 1)
      (processPacket W L pos m (loc, sn)).1 (processPacket W L pos m (loc, sn)).2 hWs hrest
      htail' (Or.inr (by rw [hpp]; exact mset_same _ _ _))
    simp only [Prod.mk.eta] at g1 g2 g3 g4 g5 g6
    refine ⟨?_, ?_, ?_, ?_, ?_, ?_⟩
    · rw [g1, h1]; simp only [List.length_cons, Nat.cast_add, Nat.cast_one]; omega
    · rw [g2, h2]
    · rw [g3, h3]
    · intro hL; rw [g4 hL, h4 hL]
    · intro _
      by_cases hr : rest = []
      · subst hr
        rw [processLoop_nil, hpp]
        simp
      · rw [g5 hr]
        simp only [List.length_cons, Nat.cast_add, Nat.cast_one]
        congr 1
        omega
    · intro j hj
      rw [g6 j hj, hpp, mset_other _ _ hj]

theorem minSerial_le_of_mem (W : List payload) (p : payload) (hp : p ∈ W) :
    ∃ m, minSerial W p.Id = some m ∧ m ≤ p.Serial := by
  induction W with
  | nil => simp at hp
  | cons q W ih =>
    rw [minSerial_cons]
    rcases List.mem_cons.mp hp with h | h
    · subst h
      rw [if_pos rfl]
      cases minSerial W p.Id with
      | none => exact ⟨_, rfl, le_refl _⟩
      | some y => exact ⟨_, rfl, min_le_left _ _⟩
    · obtain ⟨m, hm, hle⟩ := ih h
      by_cases hq : q.Id = p.Id
      · rw [if_pos hq, hm]
        exact ⟨_, rfl, le_trans (min_le_right _ _) hle⟩
      · rw [if_neg hq]
        exact ⟨m, hm, hle⟩

theorem fastForward_of_not_behind (T : IntMap) (W : List payload)
    (h : ∀ k, isBehind T W k = false) :
    (fastForward T W).1 = 0 ∧ ∀ k, (fastForward T W).2 k = T k := by
  constructor
  · rw [fastForward_fst]
    apply Finset.sum_eq_zero
    intro k hk
    rw [Finset.mem_filter, h k] at hk
    exact absurd hk.2 (by simp)
  · intro k
    rw [fastForward_snd, h k]
    simp

/-- A window of one identity whose first packet carries the serial the tracker expects, or
whose identity the tracker has not seen, is left alone by `fastForward`. -/
theorem fastForward_at_expected (T : IntMap) (i s : Int) (p : payload) (W : List payload)
    (hW : ∀ q ∈ p :: W, q.Id = i) (hp : p.Serial = s) (hT : T i = none ∨ T i = some s) :
    (fastForward T (p :: W)).1 = 0 ∧ ∀ k, (fastForward T (p :: W)).2 k = T k := by
  apply fastForward_of_not_behind
  intro k
  by_cases hk : k = i
  · subst hk
    rcases hT with h | h
    · simp [isBehind, h]
    · obtain ⟨m, hm, hle⟩ := minSerial_le_of_mem (p :: W) p (List.mem_cons_self _ _)
      rw [hW p (List.mem_cons_self _ _)] at hm
      simp only [isBehind, h, hm, decide_eq_false_iff_not, not_lt]
      omega
  · apply isBehind_none_right
    by_contra hn
    have := (minSerial_ne_none_iff _ _).mp hn
    obtain ⟨q, hq, hqk⟩ := List.mem_map.mp this
    exact hk (hqk ▸ hW q hq)

theorem isRun_of_maps (i : Int) (W : List payload) (s : Int) (k : Nat)
    (hId : W.map payload.Id = List.replicate k i)
    (hSer : W.map payload.Serial = (List.range k).map (fun (j : Nat) => s + (j : Int))) :
    IsRun i s W ∧ W.length = k := by
  induction W generalizing s k with
  | nil =>
    have : k = 0 := by
      have := congrArg List.length hId
      simpa using this.symm
    exact ⟨trivial, by simp [this]⟩
  | cons p W ih =>
    cases k with
    | zero => simp at hId
    | succ k =>
      rw [List.map_cons, List.replicate_succ, List.cons.injEq] at hId
      rw [List.map_cons, List.range_succ_eq_map, List.map_cons, List.map_map,
        List.cons.injEq] at hSer
      have hSer' : W.map payload.Serial = (List.range k).map (fun (j : Nat) => s + 1 + (j : Int)) := by
        rw [hSer.2]
        apply List.map_congr_left
        intro j _
        simp only [Function.comp, Nat.succ_eq_add_one, Nat.cast_add, Nat.cast_one]
        ring
      obtain ⟨h1, h2⟩ := ih (s + 1) k hId.2 hSer'
      refine ⟨⟨hId.1, ?_, h1⟩, by simp [h2]⟩
      simpa using hSer.1

/-! ## Lemmas: a run with one missing serial -/

theorem processLoop_append (W L : List payload) (A B : List payload) (pos : Nat) (st : State) :
    processLoop W L pos (A ++ B) st
      = processLoop W L (pos + A.length) B (processLoop W L pos A st) := by
  induction A generalizing pos st with
  | nil => simp [processLoop_nil]
  | cons a A ih =>
    rw [List.cons_append, processLoop_cons, processLoop_cons, ih, List.length_cons]
    congr 1
    omega

/-- The serials `s .. s + k` without the interior value `m` are the run from `s` up to
`m - 1` followed by the run from `m + 1` up to `s + k`. -/
theorem range_without (s m : Int) (k : Nat) (hsm : s < m) (hmk : m < s + k) :
    ((List.range (k + 1)).map (fun (j : Nat) => s + (j : Int))).filter
        (fun x => decide (x ≠ m))
      = (List.range (m - s).toNat).map (fun (j : Nat) => s + (j : Int))
        ++ (List.range (s + k - m).toNat).map (fun (j : Nat) => m + 1 + (j : Int)) := by
  obtain ⟨a, ha⟩ : ∃ a : Nat, m - s = a := ⟨(m - s).toNat, by omega⟩
  obtain ⟨b, hb⟩ : ∃ b : Nat, s + k - m = b := ⟨(s + k - m).toNat, by omega⟩
  have hk : k + 1 = a + (b + 1) := by omega
  rw [ha, hb, Int.toNat_ofNat, Int.toNat_ofNat, hk, List.range_add, List.map_append,
    List.filter_append, List.range_succ_eq_map, List.map_cons, List.map_cons, List.map_map,
    List.map_map]
  congr 1
  · rw [List.filter_eq_self]
    intro x hx
    obtain ⟨j, hj, rfl⟩ := List.mem_map.mp hx
    have := List.mem_range.mp hj
    simp only [ne_eq, decide_not, Bool.not_eq_eq_eq_not, Bool.not_true, decide_eq_false_iff_not]
    omega
  · have h0 : ¬ (s + ((a + 0 : Nat) : Int) ≠ m) := by
      simp only [ne_eq, not_not]
      push_cast
      omega
    rw [List.filter_cons_of_neg (by simpa using h0), List.filter_eq_self.mpr]
    · apply List.map_congr_left
      intro j _
      simp only [Function.comp, Nat.succ_eq_add_one]
      push_cast
      omega
    · intro x hx
      obtain ⟨j, _, rfl⟩ := List.mem_map.mp hx
      simp only [Function.comp, Nat.succ_eq_add_one, ne_eq, decide_not, Bool.not_eq_eq_eq_not,
        Bool.not_true, decide_eq_false_iff_not]
      push_cast
      omega

theorem isRun_of_serials (i : Int) (W : List payload) (s : Int) (k : Nat)
    (hId : ∀ p ∈ W, p.Id = i)
    (hSer : W.map payload.Serial = (List.range k).map (fun (j : Nat) => s + (j : Int))) :
    IsRun i s W ∧ W.length = k := by
  have hlen : W.length = k := by
    have := congrArg List.length hSer
    simpa using this
  apply isRun_of_maps i W s k _ hSer
  rw [List.eq_replicate_iff]
  refine ⟨by simp [hlen], ?_⟩
  intro x hx
  obtain ⟨p, hp, rfl⟩ := List.mem_map.mp hx
  exact hId p hp

/-- The loop body of `process` on a packet that carries the serial after the expected one,
when no packet ahead (rest of the window or lookahead) carries the expected serial: one
drop is counted and the identity ends expecting the serial after the packet's. -/
theorem processPacket_skip_one (W L : List payload) (pos : Nat) (m : payload)
    (loc : packetStats) (sn : IntMap) (e : Int) (he : sn m.Id = some e)
    (hs : m.Serial = e + 1) (h0 : occ m.Id e (W.drop pos) = 0) (h1 : occ m.Id e L = 0) :
    (processPacket W L pos m (loc, sn)).1.dropPkts = loc.dropPkts + 1
      ∧ (processPacket W L pos m (loc, sn)).2 m.Id = some (e + 2)
      ∧ ∀ j, j ≠ m.Id → (processPacket W L pos m (loc, sn)).2 j = sn j := by
  refine ⟨?_, ?_, fun j hj => processPacket_other W L pos m (loc, sn) hj⟩
  · rw [processPacket_ahead _ _ _ _ _ _ e he (by omega)]
    have hf : (m.Serial - e).toNat = 0 + 1 := by rw [hs]; simp
    have hfp : findPacket sn W L pos m.Id = 0 := by
      rw [findPacket_eq, mget_of_some he, h0, h1]; rfl
    rw [hf, catchUp_succ, mget_of_some he, if_pos (by omega), catchUp_zero, hfp]
    simp [bump, accum]
  · rw [processPacket_self]
    simp only [he]
    rw [max_eq_right (by omega), hs]
    congr 1
    ring

/-- The loop of `process` over a window of one identity made of a run from `s` up to
`m - 1` followed by a run from `m + 1` on, with no packet carrying `m` in the lookahead:
one drop is counted and the identity ends expecting the serial after the last packet. -/
theorem processLoop_one_gap (i s m : Int) (L A B : List payload) (loc : packetStats)
    (sn : IntMap) (hA : IsRun i s A) (hAne : A ≠ []) (hB : IsRun i (m + 1) B) (hBne : B ≠ [])
    (hm : s + A.length = m) (hL : ∀ p ∈ L, ¬ (p.Id = i ∧ p.Serial = m))
    (hsn : sn i = none ∨ sn i = some s) :
    (processLoop (A ++ B) L 0 (A ++ B) (loc, sn)).1.dropPkts = loc.dropPkts + 1
      ∧ (processLoop (A ++ B) L 0 (A ++ B) (loc, sn)).2 i = some (m + 1 + B.length) := by
  obtain ⟨_, g2, _, _, g5, _⟩ := processLoop_run i (A ++ B) L A B s 0 loc sn
    (by rw [List.drop_zero]) hA
    (by
      intro p hp _
      have := hB.serial_ge p hp
      omega)
    hsn
  have g5' := g5 hAne
  rw [hm] at g5'
  rw [processLoop_append]
  generalize processLoop (A ++ B) L 0 A (loc, sn) = stA at g2 g5' ⊢
  obtain ⟨locA, snA⟩ := stA
  cases B with
  | nil => exact absurd rfl hBne
  | cons pb B' =>
    obtain ⟨hpbi, hpbs, hrunB'⟩ := hB
    have hdropB : (A ++ pb :: B').drop (0 + A.length) = pb :: B' := by
      rw [zero_add, List.drop_left]
    have hocc : occ pb.Id m ((A ++ pb :: B').drop (0 + A.length)) = 0 := by
      rw [hdropB]
      apply occ_eq_zero
      intro p hp _
      have := IsRun.serial_ge (i := i) (s := m + 1) (R := pb :: B') ⟨hpbi, hpbs, hrunB'⟩ p hp
      omega
    have hoccL : occ pb.Id m L = 0 := by
      apply occ_eq_zero
      intro p hp hpi hps
      exact hL p hp ⟨hpi.trans hpbi, hps⟩
    obtain ⟨k1, k2, _⟩ := processPacket_skip_one (A ++ pb :: B') L (0 + A.length) pb locA snA
      m (by rw [hpbi]; exact g5') hpbs hocc hoccL
    rw [hpbi] at k2
    rw [processLoop_cons]
    generalize processPacket (A ++ pb :: B') L (0 + A.length) pb (locA, snA) = stB at k1 k2 ⊢
    obtain ⟨locB, snB⟩ := stB
    obtain ⟨_, r2, _, _, r5, _⟩ := processLoop_run i (A ++ pb :: B') L B' [] (m + 2)
      (0 + A.length + 1) locB snB
      (by rw [List.append_nil]; exact drop_succ_of_drop_eq_cons hdropB)
      (by
        have : m + 1 + 1 = m + 2 := by ring
        rw [← this]; exact hrunB')
      (by simp) (Or.inr k2)
    refine ⟨by rw [r2, k1, g2], ?_⟩
    by_cases hB' : B' = []
    · subst hB'
      rw [processLoop_nil, k2]
      simp only [List.length_cons, List.length_nil]
      congr 1
      push_cast
      ring
    · rw [r5 hB']
      simp only [List.length_cons]
      congr 1
      push_cast
      omega

/-! ## Lemmas: windows of two packets -/

theorem minSerial_pair (i s : Int) (p q : payload) (hp : p.Id = i ∧ p.Serial = s)
    (hq : q.Id = i ∧ q.Serial = s) : minSerial [p, q] i = some s := by
  simp [minSerial, hp.1, hp.2, hq.1, hq.2, List.min?_cons]

theorem processPacket_late_dup (W L : List payload) (pos : Nat) (m : payload)
    (loc : packetStats) (sn : IntMap) (e : Int) (he : sn m.Id = some e) (h : m.Serial < e) :
    (processPacket W L pos m (loc, sn)).1.dupPkts = loc.dupPkts
      ∧ (processPacket W L pos m (loc, sn)).2 = sn := by
  rw [processPacket_late _ _ _ _ _ _ e he h]
  simp [accum]

/-- The loop of `process` over two packets that both carry `(i, s)`, with an empty
lookahead, when the identity expects `s` or a later serial: one duplicate is counted when
`s` is the expected serial, none when it is already behind the cursor. -/
theorem processLoop_pair (i s e : Int) (p q : payload) (hp : p.Id = i ∧ p.Serial = s)
    (hq : q.Id = i ∧ q.Serial = s) (loc : packetStats) (sn : IntMap) (hsn : sn i = some e)
    (hle : s ≤ e) :
    (processLoop [p, q] [] 0 [p, q] (loc, sn)).1.dupPkts
      = loc.dupPkts + if e = s then 1 else 0 := by
  obtain ⟨hpi, hps⟩ := hp
  obtain ⟨hqi, hqs⟩ := hq
  have hsnp : sn p.Id = some e := by rw [hpi]; exact hsn
  rw [processLoop_cons, processLoop_cons, processLoop_nil]
  by_cases hes : e = s
  · subst hes
    rw [if_pos rfl]
    have e1 : (processPacket [p, q] [] 0 p (loc, sn)).1.dupPkts = loc.dupPkts + 1
        ∧ (processPacket [p, q] [] 0 p (loc, sn)).2 q.Id = some (e + 1) := by
      have hocc : occ p.Id e (List.drop (0 + 1) [p, q]) = 1 := by
        simp [occ, hpi, hqi, hqs]
      rw [processPacket_ahead _ _ _ _ _ _ e hsnp (by omega), hps, sub_self,
        Int.toNat_zero, catchUp_zero, hocc, occ_nil, hqi, hpi]
      simp [accum]
    generalize processPacket [p, q] [] 0 p (loc, sn) = st1 at e1 ⊢
    obtain ⟨loc1, sn1⟩ := st1
    rw [(processPacket_late_dup _ _ _ q loc1 sn1 (e + 1) e1.2 (by omega)).1, e1.1]
  · have hlt : s < e := by omega
    rw [if_neg hes]
    obtain ⟨h1, h2⟩ := processPacket_late_dup [p, q] [] 0 p loc sn e hsnp (by omega)
    generalize processPacket [p, q] [] 0 p (loc, sn) = st1 at h1 h2 ⊢
    obtain ⟨loc1, sn1⟩ := st1
    simp only at h1 h2
    subst h2
    rw [(processPacket_late_dup _ _ _ q loc1 sn1 e (by rw [hqi]; exact hsn) (by omega)).1, h1,
      add_zero]

/-- Two packets that both carry `(1, 5)`, seen by a tracker with no entry for identity 1:
the first-packet branch of `process` searches for no duplicate, and none is counted. -/
theorem duplicate_pair_first_sight :
    (process [⟨1, 5, 0, 0, 3⟩, ⟨1, 5, 0, 10, 14⟩] [] emptyMap).1.dupPkts = 0 := by
  decide

/-- The loop of `process` over the two packets `(i, N + 1)`, `(i, N)` in that order, with
an empty lookahead, when the identity expects `N`: the catch-up loop at the first packet
finds the second one ahead and counts it as reordered and received, the first packet is
then received, and the second packet is received again when the loop reaches it. -/
theorem processLoop_swapped_pair (i N : Int) (p q : payload) (hp : p.Id = i ∧ p.Serial = N + 1)
    (hq : q.Id = i ∧ q.Serial = N) (loc : packetStats) (sn : IntMap) (hsn : sn i = some N) :
    (processLoop [p, q] [] 0 [p, q] (loc, sn)).1.reordPkts = loc.reordPkts + 1
      ∧ (processLoop [p, q] [] 0 [p, q] (loc, sn)).1.dropPkts = loc.dropPkts
      ∧ (processLoop [p, q] [] 0 [p, q] (loc, sn)).1.dupPkts = loc.dupPkts
      ∧ (processLoop [p, q] [] 0 [p, q] (loc, sn)).1.rcvdPkts = loc.rcvdPkts + 3 := by
  obtain ⟨hpi, hps⟩ := hp
  obtain ⟨hqi, hqs⟩ := hq
  have hsnp : sn p.Id = some N := by rw [hpi]; exact hsn
  rw [processLoop_cons, processLoop_cons, processLoop_nil]
  have e1 : (processPacket [p, q] [] 0 p (loc, sn)).1.reordPkts = loc.reordPkts + 1
      ∧ (processPacket [p, q] [] 0 p (loc, sn)).1.dropPkts = loc.dropPkts
      ∧ (processPacket [p, q] [] 0 p (loc, sn)).1.dupPkts = loc.dupPkts
      ∧ (processPacket [p, q] [] 0 p (loc, sn)).1.rcvdPkts = loc.rcvdPkts + 2
      ∧ (processPacket [p, q] [] 0 p (loc, sn)).2 q.Id = some (N + 2) := by
    have hf : (p.Serial - N).toNat = 0 + 1 := by rw [hps]; simp
    have hfp : findPacket sn [p, q] [] 0 p.Id = 1 := by
      rw [findPacket_eq, mget_of_some hsnp]
      simp [occ, hpi, hps, hqi, hqs]
    have hocc : occ p.Id p.Serial (List.drop (0 + 1) [p, q]) = 0 := by
      simp [occ, hpi, hps, hqi, hqs]
    rw [processPacket_ahead _ _ _ _ _ _ N hsnp (by omega), hf, catchUp_succ,
      mget_of_some hsnp, if_pos (by omega), catchUp_zero, hfp, hocc, occ_nil, hqi, hpi, hps]
    refine ⟨by simp [bump, accum], by simp [bump, accum], by simp [bump, accum],
      by simp [bump, accum]; ring, ?_⟩
    simp only [mset_same]
    congr 1
    ring
  generalize processPacket [p, q] [] 0 p (loc, sn) = st1 at e1 ⊢
  obtain ⟨loc1, sn1⟩ := st1
  obtain ⟨h1, h2, h3, h4, h5⟩ := e1
  rw [processPacket_late _ _ _ q loc1 sn1 (N + 2) h5 (by omega)]
  simp only at h1 h2 h3 h4
  refine ⟨by simp [accum, h1], by simp [accum, h2], by simp [accum, h3], ?_⟩
  simp only [accum, updateRtt_rcvdPkts, h4]
  ring

theorem fastForward_pair_not_behind (T : IntMap) (i N : Int) (p q : payload)
    (hp : p.Id = i ∧ p.Serial = N + 1) (hq : q.Id = i ∧ q.Serial = N) (hT : T i = some N) :
    (fastForward T [p, q]).1 = 0 ∧ ∀ k, (fastForward T [p, q]).2 k = T k := by
  apply fastForward_of_not_behind
  intro k
  by_cases hk : k = i
  · subst hk
    have hmin : minSerial [p, q] k = some N := by
      simp [minSerial, hp.1, hp.2, hq.1, hq.2, List.min?_cons]
    simp [isBehind, hT, hmin]
  · apply isBehind_none_right
    by_contra hn
    have := (minSerial_ne_none_iff _ _).mp hn
    simp only [List.map_cons, List.map_nil, hp.1, hq.1, List.mem_cons, List.mem_singleton,
      or_self, List.not_mem_nil, or_false] at this
    exact hk this

/-! ## Lemmas: received and reordered counts -/

theorem catchUp_balance (W L : List payload) (pos : Nat) (m : payload) (fuel : Nat)
    (loc : packetStats) (sn : IntMap) :
    (catchUp W L pos m fuel (loc, sn)).1.rcvdPkts - (catchUp W L pos m fuel (loc, sn)).1.reordPkts
      = loc.rcvdPkts - loc.reordPkts := by
  induction fuel generalizing loc sn with
  | zero => rw [catchUp_zero]
  | succ n ih =>
    rw [catchUp_succ]
    split_ifs with h
    · rw [ih]
      unfold bump
      split_ifs <;> simp
    · rfl

/-- The loop body of `process` raises the received count, less the reordered count, by
exactly one. -/
theorem processPacket_balance (W L : List payload) (pos : Nat) (m : payload) (st : State) :
    (processPacket W L pos m st).1.rcvdPkts - (processPacket W L pos m st).1.reordPkts
      = st.1.rcvdPkts - st.1.reordPkts + 1 := by
  obtain ⟨loc, sn⟩ := st
  cases he : sn m.Id with
  | none =>
    rw [processPacket_none _ _ _ _ _ _ he]
    simp [accum]; ring
  | some e =>
    by_cases h : m.Serial < e
    · rw [processPacket_late _ _ _ _ _ _ e he h]
      simp [accum]; ring
    · rw [processPacket_ahead _ _ _ _ _ _ e he (by omega)]
      have hb := catchUp_balance W L pos m (m.Serial - e).toNat (accum m loc) sn
      simp only [accum, updateRtt_rcvdPkts, updateRtt_reordPkts] at hb
      simp only [accum]
      omega

theorem processLoop_balance (W L : List payload) (rest : List payload) (pos : Nat) (st : State) :
    (processLoop W L pos rest st).1.rcvdPkts - (processLoop W L pos rest st).1.reordPkts
      = st.1.rcvdPkts - st.1.reordPkts + rest.length := by
  induction rest generalizing pos st with
  | nil => simp [processLoop_nil]
  | cons m rest ih =>
    rw [processLoop_cons, ih, processPacket_balance, List.length_cons]
    push_cast
    ring

/-! ## Lemmas: late packets -/

theorem minSerial_mem (W : List payload) (k m : Int) (h : minSerial W k = some m) :
    ∃ p ∈ W, p.Id = k ∧ p.Serial = m := by
  induction W generalizing m with
  | nil => simp [minSerial_nil] at h
  | cons v W ih =>
    rw [minSerial_cons] at h
    by_cases hv : v.Id = k
    · rw [if_pos hv] at h
      cases hW : minSerial W k with
      | none =>
        rw [hW] at h
        simp only [Option.elim, Option.some.injEq] at h
        exact ⟨v, List.mem_cons_self _ _, hv, h⟩
      | some y =>
        rw [hW] at h
        simp only [Option.elim, Option.some.injEq] at h
        rcases min_choice v.Serial y with hc | hc
        · exact ⟨v, List.mem_cons_self _ _, hv, by rw [← h, hc]⟩
        · obtain ⟨p, hp, hpk, hps⟩ := ih y hW
          exact ⟨p, List.mem_cons_of_mem _ hp, hpk, by rw [← h, hc, hps]⟩
    · rw [if_neg hv] at h
      obtain ⟨p, hp, hpk, hps⟩ := ih m h
      exact ⟨p, List.mem_cons_of_mem _ hp, hpk, hps⟩

/-- The loop of `process` over packets that are all behind the cursor of their identity:
each counts as received, nothing else changes. -/
theorem processLoop_all_late (W L : List payload) (rest : List payload) (pos : Nat)
    (loc : packetStats) (sn : IntMap)
    (h : ∀ p ∈ rest, ∃ e, sn p.Id = some e ∧ p.Serial < e) :
    (processLoop W L pos rest (loc, sn)).1.rcvdPkts = loc.rcvdPkts + rest.length
      ∧ (processLoop W L pos rest (loc, sn)).1.dropPkts = loc.dropPkts
      ∧ (processLoop W L pos rest (loc, sn)).1.dupPkts = loc.dupPkts
      ∧ (processLoop W L pos rest (loc, sn)).1.reordPkts = loc.reordPkts
      ∧ (processLoop W L pos rest (loc, sn)).2 = sn := by
  induction rest generalizing pos loc with
  | nil => simp [processLoop_nil]
  | cons m rest ih =>
    obtain ⟨e, he, hlt⟩ := h m (List.mem_cons_self _ _)
    rw [processLoop_cons, processPacket_late _ _ _ _ _ _ e he hlt]
    obtain ⟨h1, h2, h3, h4, h5⟩ := ih (pos + 1)
      { accum m loc with rcvdPkts := (accum m loc).rcvdPkts + 1 }
      (fun p hp => h p (List.mem_cons_of_mem _ hp))
    refine ⟨?_, ?_, ?_, ?_, h5⟩
    · rw [h1]; simp [accum]; ring
    · rw [h2]; simp [accum]
    · rw [h3]; simp [accum]
    · rw [h4]; simp [accum]

/-! ## Lemmas: the tracker entry after `process` -/

theorem int_max?_eq_some_iff (xs : List Int) (a : Int) :
    xs.max? = some a ↔ a ∈ xs ∧ ∀ b ∈ xs, b ≤ a := by
  haveI : Std.Antisymm (fun (x1 x2 : Int) => x1 ≤ x2) := ⟨fun h1 h2 => le_antisymm h1 h2⟩
  apply List.max?_eq_some_iff
  · intro a; exact le_refl a
  · intro a b; exact max_choice a b
  · intro a b c; exact max_le_iff

theorem int_min?_eq_some_iff (xs : List Int) (a : Int) :
    xs.min? = some a ↔ a ∈ xs ∧ ∀ b ∈ xs, a ≤ b := by
  haveI : Std.Antisymm (fun (x1 x2 : Int) => x1 ≤ x2) := ⟨fun h1 h2 => le_antisymm h1 h2⟩
  apply List.min?_eq_some_iff
  · intro a; exact le_refl a
  · intro a b; exact min_choice a b
  · intro a b c; exact le_min_iff

/-- The value `maxSerial` returns is the greatest serial of the identity in the window. -/
theorem maxSerial_eq_some_iff (W : List payload) (i M : Int) :
    maxSerial W i = some M
      ↔ (∃ p ∈ W, p.Id = i ∧ p.Serial = M) ∧ ∀ p ∈ W, p.Id = i → p.Serial ≤ M := by
  unfold maxSerial
  rw [int_max?_eq_some_iff]
  simp only [List.mem_map, List.mem_filter, decide_eq_true_eq]
  constructor
  · rintro ⟨⟨p, ⟨hp, hpi⟩, hps⟩, h2⟩
    exact ⟨⟨p, hp, hpi, hps⟩, fun q hq hqi => h2 _ ⟨q, ⟨hq, hqi⟩, rfl⟩⟩
  · rintro ⟨⟨p, hp, hpi, hps⟩, h2⟩
    refine ⟨⟨p, ⟨hp, hpi⟩, hps⟩, ?_⟩
    rintro b ⟨q, ⟨hq, hqi⟩, rfl⟩
    exact h2 q hq hqi

/-- The value `minSerial` returns is the least serial of the identity in the window. -/
theorem minSerial_eq_some_iff (W : List payload) (i m : Int) :
    minSerial W i = some m
      ↔ (∃ p ∈ W, p.Id = i ∧ p.Serial = m) ∧ ∀ p ∈ W, p.Id = i → m ≤ p.Serial := by
  unfold minSerial
  rw [int_min?_eq_some_iff]
  simp only [List.mem_map, List.mem_filter, decide_eq_true_eq]
  constructor
  · rintro ⟨⟨p, ⟨hp, hpi⟩, hps⟩, h2⟩
    exact ⟨⟨p, hp, hpi, hps⟩, fun q hq hqi => h2 _ ⟨q, ⟨hq, hqi⟩, rfl⟩⟩
  · rintro ⟨⟨p, hp, hpi, hps⟩, h2⟩
    refine ⟨⟨p, ⟨hp, hpi⟩, hps⟩, ?_⟩
    rintro b ⟨q, ⟨hq, hqi⟩, rfl⟩
    exact h2 q hq hqi

theorem maxSerial_eq_none_iff (W : List payload) (i : Int) :
    maxSerial W i = none ↔ ∀ p ∈ W, p.Id ≠ i := by
  unfold maxSerial
  rw [List.max?_eq_none_iff, List.map_eq_nil_iff, List.filter_eq_nil_iff]
  simp

theorem maxSerial_nil (i : Int) : maxSerial [] i = none := by
  simp [maxSerial]

theorem maxSerial_cons (v : payload) (W : List payload) (i : Int) :
    maxSerial (v :: W) i
      = if v.Id = i then some ((maxSerial W i).elim v.Serial (max v.Serial))
        else maxSerial W i := by
  unfold maxSerial
  by_cases h : v.Id = i
  · simp [h, List.max?_cons]
  · simp [h]

/-- The tracker entry of an identity after the loop of `process`: untouched when no packet
of the list carries the identity, otherwise the greatest serial plus one, or the old entry
when that is larger. -/
theorem processLoop_entry (W L : List payload) (rest : List payload) (pos : Nat) (st : State)
    (i : Int) :
    (processLoop W L pos rest st).2 i
      = match maxSerial rest i with
        | none => st.2 i
        | some M => some (match st.2 i with
          | none => M + 1
          | some e => max e (M + 1)) := by
  induction rest generalizing pos st with
  | nil => rw [processLoop_nil, maxSerial_nil]
  | cons m rest ih =>
    rw [processLoop_cons, ih, maxSerial_cons]
    by_cases hm : m.Id = i
    · subst hm
      rw [if_pos rfl, processPacket_self]
      cases hM : maxSerial rest m.Id with
      | none => rfl
      | some M =>
        cases he : st.2 m.Id with
        | none =>
          simp only [Option.elim, Option.some.injEq]
          exact max_add_add_right _ _ _
        | some e =>
          simp only [Option.elim, Option.some.injEq]
          rw [max_assoc, max_add_add_right]
    · rw [if_neg hm, processPacket_other _ _ _ _ _ (fun h => hm h.symm)]

theorem maxSerial_perm (W W' : List payload) (i : Int) (h : W'.Perm W) :
    maxSerial W' i = maxSerial W i := by
  cases hM : maxSerial W i with
  | none =>
    rw [maxSerial_eq_none_iff] at hM ⊢
    exact fun p hp => hM p (h.mem_iff.mp hp)
  | some M =>
    rw [maxSerial_eq_some_iff] at hM ⊢
    obtain ⟨⟨p, hp, hpi, hps⟩, h2⟩ := hM
    exact ⟨⟨p, h.mem_iff.mpr hp, hpi, hps⟩, fun q hq => h2 q (h.mem_iff.mp hq)⟩

/-- The tracker entry of an identity after `process`, in closed form. -/
theorem process_entry (W L : List payload) (T : IntMap) (i : Int) :
    (process W L T).2 i
      = match maxSerial W i with
        | none => T i
        | some M => some (match T i with
          | none => M + 1
          | some e => max e (M + 1)) := by
  have h := processLoop_entry W L W 0
    ({ packetStats.zero with dropPkts := (fastForward T W).1 }, (fastForward T W).2) i
  refine h.trans ?_
  show (match maxSerial W i with
    | none => (fastForward T W).2 i
    | some M => some (match (fastForward T W).2 i with
      | none => M + 1
      | some e => max e (M + 1))) = _
  rw [fastForward_snd]
  cases hM : maxSerial W i with
  | none =>
    have hn : minSerial W i = none := by
      by_contra hc
      obtain ⟨p, hp, hpi⟩ := List.mem_map.mp ((minSerial_ne_none_iff W i).mp hc)
      exact (maxSerial_eq_none_iff W i).mp hM p hp hpi
    simp only [isBehind_none_right T W i hn]
    simp
  | some M =>
    by_cases hb : isBehind T W i = true
    · obtain ⟨e, m, h1, h2, h3⟩ := (isBehind_iff T W i).mp hb
      obtain ⟨p, hp, hpi, hps⟩ := minSerial_mem W i m h2
      have hle : m ≤ M := by
        rw [← hps]
        exact ((maxSerial_eq_some_iff W i M).mp hM).2 p hp hpi
      simp only [hb, if_true, h2, h1, Option.some.injEq]
      rw [max_eq_right (by omega), max_eq_right (by omega)]
    · simp only [hb]
      simp

/-! ## Lemmas: the RTT fields -/

theorem rttPart_updateRtt (m : payload) (l : packetStats) :
    rttPart (updateRtt m l) = rttStep (rttPart l) m := by
  unfold updateRtt rttPart rttStep rtt
  dsimp only
  split_ifs <;> rfl

theorem rttPart_bump (l : packetStats) (f : Int) : rttPart (bump l f) = rttPart l := by
  unfold bump rttPart
  split_ifs <;> rfl

theorem catchUp_rttPart (W L : List payload) (pos : Nat) (m : payload) (fuel : Nat)
    (loc : packetStats) (sn : IntMap) :
    rttPart (catchUp W L pos m fuel (loc, sn)).1 = rttPart loc := by
  induction fuel generalizing loc sn with
  | zero => rw [catchUp_zero]
  | succ n ih =>
    rw [catchUp_succ]
    split_ifs
    · rw [ih, rttPart_bump]
    · rfl

/-- The loop body of `process` changes the RTT fields as `updateRtt` does, whatever branch
it takes. -/
theorem processPacket_rttPart (W L : List payload) (pos : Nat) (m : payload) (st : State) :
    rttPart (processPacket W L pos m st).1 = rttStep (rttPart st.1) m := by
  obtain ⟨loc, sn⟩ := st
  have ha : rttPart (accum m loc) = rttStep (rttPart loc) m := by
    unfold accum
    rw [rttPart_updateRtt]
    rfl
  cases he : sn m.Id with
  | none =>
    rw [processPacket_none _ _ _ _ _ _ he, ← ha]
    rfl
  | some e =>
    by_cases h : m.Serial < e
    · rw [processPacket_late _ _ _ _ _ _ e he h, ← ha]
      rfl
    · rw [processPacket_ahead _ _ _ _ _ _ e he (by omega), ← ha,
        ← catchUp_rttPart W L pos m (m.Serial - e).toNat (accum m loc) sn]
      rfl

theorem processLoop_rttPart (W L : List payload) (rest : List payload) (pos : Nat) (st : State) :
    rttPart (processLoop W L pos rest st).1 = rest.foldl rttStep (rttPart st.1) := by
  induction rest generalizing pos st with
  | nil => rw [processLoop_nil]; rfl
  | cons m rest ih =>
    rw [processLoop_cons, ih, processPacket_rttPart, List.foldl_cons]

/-- Folding `rttStep` over packets of positive RTT, from a minimum that is set: the minimum
becomes the least of the old minimum and the RTTs, the maximum the greatest of the old
maximum and the RTTs, the total grows by the sum of the RTTs. -/
theorem foldl_rttStep (rest : List payload) (r : Int × Int × Int) (hr : 0 < r.1)
    (hpos : ∀ p ∈ rest, 0 < rtt p) :
    0 < (rest.foldl rttStep r).1
      ∧ (rest.foldl rttStep r).1 ≤ r.1
      ∧ (∀ p ∈ rest, (rest.foldl rttStep r).1 ≤ rtt p)
      ∧ ((rest.foldl rttStep r).1 = r.1 ∨ ∃ p ∈ rest, rtt p = (rest.foldl rttStep r).1)
      ∧ r.2.1 ≤ (rest.foldl rttStep r).2.1
      ∧ (∀ p ∈ rest, rtt p ≤ (rest.foldl rttStep r).2.1)
      ∧ ((rest.foldl rttStep r).2.1 = r.2.1 ∨ ∃ p ∈ rest, rtt p = (rest.foldl rttStep r).2.1)
      ∧ (rest.foldl rttStep r).2.2 = r.2.2 + (rest.map rtt).sum := by
  induction rest generalizing r with
  | nil => simp [hr]
  | cons m rest ih =>
    have hm : 0 < rtt m := hpos m (List.mem_cons_self _ _)
    have hr' : 0 < (rttStep r m).1 := by
      unfold rttStep; dsimp only; split_ifs <;> omega
    obtain ⟨h1, h2, h3, h4, h5, h6, h7, h8⟩ := ih (rttStep r m) hr'
      (fun p hp => hpos p (List.mem_cons_of_mem _ hp))
    have e1 : (rttStep r m).1 = min r.1 (rtt m) := by
      unfold rttStep; dsimp only
      rw [min_def]
      split_ifs <;> omega
    have e2 : (rttStep r m).2.1 = max r.2.1 (rtt m) := by
      unfold rttStep; dsimp only
      rw [max_def]
      split_ifs <;> omega
    have e3 : (rttStep r m).2.2 = r.2.2 + rtt m := rfl
    rw [List.foldl_cons]
    rw [e1] at h2 h4
    rw [e2] at h5 h7
    rw [e3] at h8
    refine ⟨h1, le_trans h2 (min_le_left _ _), ?_, ?_, le_trans (le_max_left _ _) h5, ?_, ?_, ?_⟩
    · intro p hp
      rcases List.mem_cons.mp hp with h | h
      · rw [h]; exact le_trans h2 (min_le_right _ _)
      · exact h3 p h
    · rcases h4 with h | ⟨p, hp, hpe⟩
      · rcases min_choice r.1 (rtt m) with hc | hc
        · left; rw [h, hc]
        · right; exact ⟨m, List.mem_cons_self _ _, by rw [h, hc]⟩
      · right; exact ⟨p, List.mem_cons_of_mem _ hp, hpe⟩
    · intro p hp
      rcases List.mem_cons.mp hp with h | h
      · rw [h]; exact le_trans (le_max_right _ _) h5
      · exact h6 p h
    · rcases h7 with h | ⟨p, hp, hpe⟩
      · rcases max_choice r.2.1 (rtt m) with hc | hc
        · left; rw [h, hc]
        · right; exact ⟨m, List.mem_cons_self _ _, by rw [h, hc]⟩
      · right; exact ⟨p, List.mem_cons_of_mem _ hp, hpe⟩
    · rw [h8, List.map_cons, List.sum_cons, add_assoc]

/-- The RTT fields `process` returns are those of folding `updateRtt` over the closed
window: neither the lookahead nor the tracker enters. -/
theorem process_rttPart (W L : List payload) (T : IntMap) :
    rttPart (process W L T).1 = W.foldl rttStep (0, 0, 0) :=
  processLoop_rttPart W L W 0
    ({ packetStats.zero with dropPkts := (fastForward T W).1 }, (fastForward T W).2)

/-! ## Lemmas: `statsPrint` and the engine loop -/

theorem goDiv_of_ne_zero (a b : Int) (h : b ≠ 0) : goDiv a b = some (Int.tdiv a b) := by
  simp [goDiv, h]

theorem statsPrint_zero (marshal : jsonReport → Except String String) (now : Int)
    (stats : packetStats) (printJson : String) (qlen qcap : Int) (h : stats.rcvdPkts = 0) :
    statsPrint marshal now stats printJson qlen qcap = some (stats, []) := by
  simp [statsPrint, h]

theorem statsPrint_text (marshal : jsonReport → Except String String) (now : Int)
    (stats : packetStats) (qlen qcap : Int) (h : stats.rcvdPkts ≠ 0) :
    statsPrint marshal now stats "text" qlen qcap
      = some (stats, [Output.text
          { received := stats.rcvdPkts
            dropped := stats.dropPkts
            droppedPct := ⟨stats.dropPkts, stats.rcvdPkts + stats.dropPkts⟩
            reordered := stats.reordPkts
            reorderedPct := ⟨stats.reordPkts, stats.rcvdPkts + stats.dropPkts⟩
            duplicates := stats.dupPkts
            avgRtt := Int.tdiv stats.totRtt stats.rcvdPkts
            fastest := stats.minRtt - Int.tdiv stats.totRtt stats.rcvdPkts
            slowest := stats.maxRtt - Int.tdiv stats.totRtt stats.rcvdPkts
            qlen := qlen
            qcap := qcap
            qdrops := stats.pbdropPkts }]) := by
  simp [statsPrint, h, goDiv_of_ne_zero _ _ h]

theorem statsPrint_json (marshal : jsonReport → Except String String) (now : Int)
    (stats : packetStats) (printJson : String) (qlen qcap : Int) (h : stats.rcvdPkts ≠ 0)
    (hmode : printJson ≠ "text") :
    statsPrint marshal now stats printJson qlen qcap
      = match marshal (reportOf now stats printJson qlen qcap
            (Int.tdiv stats.totRtt stats.rcvdPkts)) with
        | Except.error err => some (stats, [Output.error err])
        | Except.ok b => some (stats, [Output.json b]) := by
  simp only [statsPrint, h, hmode, if_false, goDiv_of_ne_zero _ _ h]
  rfl

/-- Whatever its arguments, `statsPrint` returns (no division by zero is reached), leaves
`*stats` as it was, and writes at most one thing. -/
theorem statsPrint_returns (marshal : jsonReport → Except String String) (now : Int)
    (stats : packetStats) (printJson : String) (qlen qcap : Int) :
    ∃ out, statsPrint marshal now stats printJson qlen qcap = some (stats, out)
      ∧ out.length = if stats.rcvdPkts = 0 then 0 else 1 := by
  by_cases h : stats.rcvdPkts = 0
  · exact ⟨[], statsPrint_zero marshal now stats printJson qlen qcap h, by simp [h]⟩
  · by_cases hmode : printJson = "text"
    · subst hmode
      exact ⟨_, statsPrint_text marshal now stats qlen qcap h, by simp [h]⟩
    · rw [statsPrint_json marshal now stats printJson qlen qcap h hmode]
      cases marshal (reportOf now stats printJson qlen qcap
          (Int.tdiv stats.totRtt stats.rcvdPkts)) with
      | error err => exact ⟨_, rfl, by simp [h]⟩
      | ok b => exact ⟨_, rfl, by simp [h]⟩

theorem statsEngineStep_message (marshal : jsonReport → Except String String)
    (printJson : String) (s : Engine) (m : payload) :
    statsEngineStep marshal printJson s (Event.message m)
      = some ({ s with feedWindow := s.feedWindow ++ [m] }, []) := rfl

theorem statsEngineStep_tick (marshal : jsonReport → Except String String)
    (printJson : String) (s : Engine) (now qlen qcap : Int) :
    ∃ out, statsEngineStep marshal printJson s (Event.tick now qlen qcap)
        = some ({ workWindow := s.feedWindow, feedWindow := [],
                  serialNumbers := (process s.workWindow s.feedWindow s.serialNumbers).2,
                  glob := statsUpdate s.glob
                    (process s.workWindow s.feedWindow s.serialNumbers).1 }, out)
      ∧ statsPrint marshal now (process s.workWindow s.feedWindow s.serialNumbers).1 printJson
          qlen qcap
        = some ((process s.workWindow s.feedWindow s.serialNumbers).1, out) := by
  obtain ⟨out, h, _⟩ := statsPrint_returns marshal now
    (process s.workWindow s.feedWindow s.serialNumbers).1 printJson qlen qcap
  refine ⟨out, ?_, h⟩
  simp only [statsEngineStep, h]

theorem statsEngineRun_nil (marshal : jsonReport → Except String String) (printJson : String)
    (s : Engine) : statsEngineRun marshal printJson s [] = some (s, []) := by
  rw [statsEngineRun]

theorem statsEngineRun_cons (marshal : jsonReport → Except String String) (printJson : String)
    (s s1 s2 : Engine) (ev : Event) (evs : List Event) (out1 out2 : List Output)
    (h1 : statsEngineStep marshal printJson s ev = some (s1, out1))
    (h2 : statsEngineRun marshal printJson s1 evs = some (s2, out2)) :
    statsEngineRun marshal printJson s (ev :: evs) = some (s2, out1 ++ out2) := by
  rw [statsEngineRun, h1]
  simp only [h2]

theorem statsEngineRun_append (marshal : jsonReport → Except String String)
    (printJson : String) (evs1 evs2 : List Event) (s s1 s2 : Engine) (out1 out2 : List Output)
    (h1 : statsEngineRun marshal printJson s evs1 = some (s1, out1))
    (h2 : statsEngineRun marshal printJson s1 evs2 = some (s2, out2)) :
    statsEngineRun marshal printJson s (evs1 ++ evs2) = some (s2, out1 ++ out2) := by
  induction evs1 generalizing s out1 with
  | nil =>
    rw [statsEngineRun_nil] at h1
    cases h1
    simpa using h2
  | cons ev evs ih =>
    rw [statsEngineRun] at h1
    cases hs : statsEngineStep marshal printJson s ev with
    | none => simp [hs] at h1
    | some r =>
      obtain ⟨sa, oa⟩ := r
      simp only [hs] at h1
      cases hr : statsEngineRun marshal printJson sa evs with
      | none => simp [hr] at h1
      | some r2 =>
        obtain ⟨sb, ob⟩ := r2
        simp only [hr, Option.some.injEq, Prod.mk.injEq] at h1
        obtain ⟨rfl, rfl⟩ := h1
        rw [List.cons_append,
          statsEngineRun_cons marshal printJson s sa s2 ev (evs ++ evs2) oa (ob ++ out2) hs
            (ih sa ob hr),
          List.append_assoc]

/-- A burst of packet arrivals appends the packets to the open window, in arrival order,
and changes nothing else. -/
theorem statsEngineRun_messages (marshal : jsonReport → Except String String)
    (printJson : String) (ps : List payload) (s : Engine) :
    statsEngineRun marshal printJson s (ps.map Event.message)
      = some ({ s with feedWindow := s.feedWindow ++ ps }, []) := by
  induction ps generalizing s with
  | nil => simp [statsEngineRun_nil]
  | cons p ps ih =>
    rw [List.map_cons,
      statsEngineRun_cons marshal printJson s _ _ (Event.message p) _ [] []
        (statsEngineStep_message marshal printJson s p) (ih _)]
    simp

theorem statsEngineRun_tick (marshal : jsonReport → Except String String)
    (printJson : String) (s : Engine) (now qlen qcap : Int) :
    ∃ out, statsEngineRun marshal printJson s [Event.tick now qlen qcap]
        = some ({ workWindow := s.feedWindow, feedWindow := [],
                  serialNumbers := (process s.workWindow s.feedWindow s.serialNumbers).2,
                  glob := statsUpdate s.glob
                    (process s.workWindow s.feedWindow s.serialNumbers).1 }, out) := by
  obtain ⟨out, h, _⟩ := statsEngineStep_tick marshal printJson s now qlen qcap
  exact ⟨out ++ [], statsEngineRun_cons marshal printJson s _ _ _ [] out [] h
    (statsEngineRun_nil marshal printJson _)⟩

/-! ## Lemmas: the cumulative minimum -/

/-- The test of `statsUpdate` on the minimum, spelled out. -/
theorem statsUpdate_minRtt (G L : packetStats) :
    (statsUpdate G L).minRtt
      = if L.minRtt < G.minRtt ∨ G.minRtt = 0 then L.minRtt else G.minRtt := by
  unfold statsUpdate; dsimp only; split_ifs <;> rfl

/-- An interval without RTT sample (`minRtt = 0`) folded into cumulative stats whose minimum
is set (positive) unsets the cumulative minimum. -/
theorem statsUpdate_unsets_minRtt (G L : packetStats) (hG : 0 < G.minRtt) (hL : L.minRtt = 0) :
    (statsUpdate G L).minRtt = 0 := by
  rw [statsUpdate_minRtt, if_pos (Or.inl (by omega)), hL]

/-- `process` on an empty closed window returns interval stats without RTT sample. -/
theorem process_nil_minRtt (L : List payload) (T : IntMap) : (process [] L T).1.minRtt = 0 := by
  have h := process_rttPart [] L T
  simp only [rttPart, List.foldl_nil, Prod.mk.injEq] at h
  exact h.1

/-- The same run through the engine loop: packet with RTT 5, three ticks, packet with RTT 7,
two ticks. The cumulative minimum is 5 after the second tick, 0 after the third, and 7 at
the end. -/
theorem engine_cumulative_min_reset :
    (statsEngineRun (fun _ => Except.ok "") "text" (statsEngineInit packetStats.zero)
        [Event.message ⟨1, 1, 0, 100, 105⟩, Event.tick 0 0 8, Event.tick 0 0 8]).map
        (fun r => r.1.glob.minRtt) = some 5
      ∧ (statsEngineRun (fun _ => Except.ok "") "text" (statsEngineInit packetStats.zero)
        [Event.message ⟨1, 1, 0, 100, 105⟩, Event.tick 0 0 8, Event.tick 0 0 8,
          Event.tick 0 0 8]).map (fun r => r.1.glob.minRtt) = some 0
      ∧ (statsEngineRun (fun _ => Except.ok "") "text" (statsEngineInit packetStats.zero)
        [Event.message ⟨1, 1, 0, 100, 105⟩, Event.tick 0 0 8, Event.tick 0 0 8,
          Event.tick 0 0 8, Event.message ⟨1, 2, 0, 300, 307⟩, Event.tick 0 0 8,
          Event.tick 0 0 8]).map (fun r => r.1.glob.minRtt) = some 7 := by
  decide

/-! ## Lemmas: the drop count for one identity -/

theorem bump_dropPkts (loc : packetStats) (f : Int) :
    (bump loc f).dropPkts = loc.dropPkts + if f = 0 then 1 else 0 := by
  unfold bump
  split_ifs <;> simp

theorem occ_cons (i s : Int) (p : payload) (R : List payload) :
    occ i s (p :: R) = occ i s R + if p.Id = i ∧ p.Serial = s then 1 else 0 := by
  unfold occ
  rw [List.countP_cons]
  simp

/-- The drops the catch-up loop counts: one for every serial from the expected one up to,
not including, the packet's serial that no packet ahead carries. -/
theorem catchUp_drop (W L : List payload) (pos : Nat) (m : payload) (fuel : Nat)
    (loc : packetStats) (sn : IntMap) (c : Int) (hsn : sn m.Id = some c) (hle : c ≤ m.Serial)
    (hfuel : fuel = (m.Serial - c).toNat) :
    (catchUp W L pos m fuel (loc, sn)).1.dropPkts
      = loc.dropPkts + ((Finset.Ico c m.Serial).filter
          (fun s => occ m.Id s (W.drop pos) = 0 ∧ occ m.Id s L = 0)).card := by
  induction fuel generalizing loc sn c with
  | zero =>
    have hc : c = m.Serial := by omega
    rw [catchUp_zero, hc, Finset.Ico_self]
    simp
  | succ n ih =>
    have hlt : c < m.Serial := by omega
    have hset : Finset.Ico c m.Serial = insert c (Finset.Ico (c + 1) m.Serial) := by
      ext x
      simp only [Finset.mem_Ico, Finset.mem_insert]
      omega
    have hnot : c ∉ (Finset.Ico (c + 1) m.Serial).filter
        (fun s => occ m.Id s (W.drop pos) = 0 ∧ occ m.Id s L = 0) := by
      simp
    rw [catchUp_succ, mget_of_some hsn, if_pos hlt,
      ih _ _ (c + 1) (mset_same _ _ _) (by omega) (by omega), bump_dropPkts, findPacket_eq,
      mget_of_some hsn, hset, Finset.filter_insert]
    by_cases h0 : occ m.Id c (W.drop pos) = 0 ∧ occ m.Id c L = 0
    · rw [if_pos h0, Finset.card_insert_of_not_mem hnot, if_pos (by simp [h0.1, h0.2])]
      push_cast
      ring
    · rw [if_neg h0, if_neg]
      · ring
      · intro hf
        apply h0
        constructor <;> omega

/-- The drops the loop of `process` counts over packets of one identity `i`, from the cursor
`c`, when `M` bounds the serials still to visit and either is among them or lies below the
cursor: one for every serial from `c` to `M` that neither a packet still to visit nor a
packet of the lookahead carries. -/
theorem processLoop_drop_single (i M : Int) (W L : List payload) (rest : List payload)
    (pos : Nat) (loc : packetStats) (sn : IntMap) (c : Int) (hdrop : W.drop pos = rest)
    (hid : ∀ p ∈ rest, p.Id = i) (hsn : sn i = some c) (hM : ∀ p ∈ rest, p.Serial ≤ M)
    (hinv : (∃ p ∈ rest, p.Serial = M) ∨ M < c) :
    (processLoop W L pos rest (loc, sn)).1.dropPkts
      = loc.dropPkts + ((Finset.Icc c M).filter
          (fun s => occ i s rest = 0 ∧ occ i s L = 0)).card := by
  induction rest generalizing pos loc sn c with
  | nil =>
    have hlt : M < c := by
      rcases hinv with ⟨p, hp, _⟩ | h
      · simp at hp
      · exact h
    rw [processLoop_nil, Finset.Icc_eq_empty (by omega)]
    simp
  | cons p rest ih =>
    have hpi : p.Id = i := hid p (List.mem_cons_self _ _)
    have hsnp : sn p.Id = some c := by rw [hpi]; exact hsn
    have hWs := drop_succ_of_drop_eq_cons hdrop
    have hid' : ∀ q ∈ rest, q.Id = i := fun q hq => hid q (List.mem_cons_of_mem _ hq)
    have hM' : ∀ q ∈ rest, q.Serial ≤ M := fun q hq => hM q (List.mem_cons_of_mem _ hq)
    have hpM : p.Serial ≤ M := hM p (List.mem_cons_self _ _)
    rw [processLoop_cons]
    by_cases hlate : p.Serial < c
    · rw [processPacket_late _ _ _ _ _ _ c hsnp hlate,
        ih (pos + 1) _ sn c hWs hid' hsn hM' (by
          rcases hinv with ⟨q, hq, hqM⟩ | h
          · rcases List.mem_cons.mp hq with h | h
            · right; rw [← hqM, h]; exact hlate
            · left; exact ⟨q, h, hqM⟩
          · right; exact h)]
      have hfilt : (Finset.Icc c M).filter (fun s => occ i s (p :: rest) = 0 ∧ occ i s L = 0)
          = (Finset.Icc c M).filter (fun s => occ i s rest = 0 ∧ occ i s L = 0) := by
        apply Finset.filter_congr
        intro s hs
        have hs' := (Finset.mem_Icc.mp hs).1
        rw [occ_cons, if_neg (by intro h; omega)]
        simp
      rw [hfilt]
      simp [accum]
    · have hcp : c ≤ p.Serial := by omega
      have hcu := catchUp_drop W L pos p (p.Serial - c).toNat (accum p loc) sn c hsnp hcp rfl
      rw [hdrop, hpi] at hcu
      rw [processPacket_ahead _ _ _ _ _ _ c hsnp hcp]
      rw [ih (pos + 1) _ _ (p.Serial + 1) hWs hid' (by rw [hpi]; exact mset_same _ _ _) hM' (by
          rcases hinv with ⟨q, hq, hqM⟩ | h
          · rcases List.mem_cons.mp hq with h | h
            · right; rw [← hqM, h]; omega
            · left; exact ⟨q, h, hqM⟩
          · right; omega)]
      have hsplit : (Finset.Icc c M).filter (fun s => occ i s (p :: rest) = 0 ∧ occ i s L = 0)
          = (Finset.Ico c p.Serial).filter
              (fun s => occ i s (p :: rest) = 0 ∧ occ i s L = 0)
            ∪ (Finset.Icc (p.Serial + 1) M).filter
              (fun s => occ i s rest = 0 ∧ occ i s L = 0) := by
        ext s
        simp only [Finset.mem_filter, Finset.mem_Icc, Finset.mem_Ico, Finset.mem_union,
          occ_cons, hpi, true_and]
        by_cases hs : p.Serial = s
        · simp only [hs, if_true]
          omega
        · simp only [hs, if_false, add_zero]
          constructor
          · rintro ⟨⟨h1, h2⟩, h3⟩
            by_cases hlt : s < p.Serial
            · left; exact ⟨⟨h1, hlt⟩, h3⟩
            · right; exact ⟨⟨by omega, h2⟩, h3⟩
          · rintro (⟨⟨h1, h2⟩, h3⟩ | ⟨⟨h1, h2⟩, h3⟩)
            · exact ⟨⟨h1, by omega⟩, h3⟩
            · exact ⟨⟨by omega, h2⟩, h3⟩
      have hdisj : Disjoint
          ((Finset.Ico c p.Serial).filter (fun s => occ i s (p :: rest) = 0 ∧ occ i s L = 0))
          ((Finset.Icc (p.Serial + 1) M).filter (fun s => occ i s rest = 0 ∧ occ i s L = 0)) := by
        rw [Finset.disjoint_left]
        intro s h1 h2
        have a1 := (Finset.mem_Ico.mp (Finset.mem_filter.mp h1).1).2
        have a2 := (Finset.mem_Icc.mp (Finset.mem_filter.mp h2).1).1
        omega
      rw [hsplit, Finset.card_union_eq_card_add_card.mpr hdisj]
      simp only [accum, updateRtt_dropPkts] at hcu ⊢
      rw [hcu]
      push_cast
      ring

theorem occ_eq_zero_iff_of_single (i s : Int) (R : List payload) (hR : ∀ p ∈ R, p.Id = i) :
    occ i s R = 0 ↔ ∀ p ∈ R, p.Serial ≠ s := by
  unfold occ
  rw [List.countP_eq_zero]
  constructor
  · intro h p hp hps
    exact h p hp (by simp [hR p hp, hps])
  · intro h p hp
    simp only [decide_eq_true_eq, not_and]
    intro _
    exact h p hp

/-- `fastForward` on a window of one identity that has a tracker entry `e`, with `m` the
least serial of the window: it returns `max 0 (m - e)` and leaves the entry at
`max e m`. -/
theorem fastForward_single (T : IntMap) (i e m : Int) (W : List payload) (hT : T i = some e)
    (hW : ∀ p ∈ W, p.Id = i) (hm : (∃ p ∈ W, p.Serial = m) ∧ ∀ p ∈ W, m ≤ p.Serial) :
    (fastForward T W).1 = max 0 (m - e) ∧ (fastForward T W).2 i = some (max e m) := by
  have hmin : minSerial W i = some m := by
    rw [minSerial_eq_some_iff]
    obtain ⟨⟨p, hp, hps⟩, h2⟩ := hm
    exact ⟨⟨p, hp, hW p hp, hps⟩, fun q hq _ => h2 q hq⟩
  have hsub : (W.map payload.Id).toFinset ⊆ {i} := by
    intro k hk
    obtain ⟨p, hp, hpk⟩ := List.mem_map.mp (List.mem_toFinset.mp hk)
    rw [← hpk, hW p hp]
    exact Finset.mem_singleton_self i
  rw [fastForward_fst_superset T W {i} hsub, Finset.sum_singleton, fastForward_snd]
  by_cases hlt : e < m
  · have hb : isBehind T W i = true := (isBehind_iff T W i).mpr ⟨e, m, hT, hmin, hlt⟩
    simp only [ffGap, hb, if_true, hmin, Option.getD_some, mget_of_some hT]
    rw [max_eq_right (by omega), max_eq_right (by omega)]
    exact ⟨rfl, rfl⟩
  · have hb : ¬ isBehind T W i = true := by
      intro h
      obtain ⟨e', m', h1, h2, h3⟩ := (isBehind_iff T W i).mp h
      rw [hT] at h1; rw [hmin] at h2
      cases h1; cases h2
      exact hlt h3
    simp only [ffGap, hb, if_false, hT]
    rw [max_eq_left (by omega), max_eq_left (by omega)]
    exact ⟨rfl, rfl⟩

/-! ## Lemmas: the average RTT, and the cumulative minimum without empty intervals -/

/-- The RTT fields `process` returns on a non-empty closed window whose packets all have a
strictly positive RTT: the least RTT, the greatest RTT, and the sum of the RTTs. -/
theorem process_rtt_facts (W L : List payload) (T : IntMap) (hne : W ≠ [])
    (hpos : ∀ p ∈ W, 0 < p.Rts - p.Cts) :
    ((∃ p ∈ W, p.Rts - p.Cts = (process W L T).1.minRtt)
        ∧ ∀ p ∈ W, (process W L T).1.minRtt ≤ p.Rts - p.Cts)
      ∧ ((∃ p ∈ W, p.Rts - p.Cts = (process W L T).1.maxRtt)
        ∧ ∀ p ∈ W, p.Rts - p.Cts ≤ (process W L T).1.maxRtt)
      ∧ (process W L T).1.totRtt = (W.map (fun p => p.Rts - p.Cts)).sum := by
  have hP := process_rttPart W L T
  obtain ⟨p, rest, rfl⟩ := List.exists_cons_of_ne_nil hne
  have hp : 0 < rtt p := hpos p (List.mem_cons_self _ _)
  have h0 : rttStep (0, 0, 0) p = (rtt p, rtt p, rtt p) := by
    unfold rttStep; dsimp only
    simp [hp]
  rw [List.foldl_cons, h0] at hP
  obtain ⟨_, h2, h3, h4, h5, h6, h7, h8⟩ := foldl_rttStep rest (rtt p, rtt p, rtt p) hp
    (fun q hq => hpos q (List.mem_cons_of_mem _ hq))
  rw [← hP] at h2 h3 h4 h5 h6 h7 h8
  simp only [rttPart] at h2 h3 h4 h5 h6 h7 h8
  refine ⟨⟨?_, ?_⟩, ⟨?_, ?_⟩, ?_⟩
  · rcases h4 with h | ⟨q, hq, hqe⟩
    · exact ⟨p, List.mem_cons_self _ _, h.symm⟩
    · exact ⟨q, List.mem_cons_of_mem _ hq, hqe⟩
  · intro q hq
    rcases List.mem_cons.mp hq with h | h
    · rw [h]; exact h2
    · exact h3 q h
  · rcases h7 with h | ⟨q, hq, hqe⟩
    · exact ⟨p, List.mem_cons_self _ _, h.symm⟩
    · exact ⟨q, List.mem_cons_of_mem _ hq, hqe⟩
  · intro q hq
    rcases List.mem_cons.mp hq with h | h
    · rw [h]; exact h5
    · exact h6 q h
  · rw [h8, List.map_cons, List.sum_cons]
    rfl

theorem catchUp_reord_mono (W L : List payload) (pos : Nat) (m : payload) (fuel : Nat)
    (loc : packetStats) (sn : IntMap) :
    loc.reordPkts ≤ (catchUp W L pos m fuel (loc, sn)).1.reordPkts := by
  induction fuel generalizing loc sn with
  | zero => rw [catchUp_zero]
  | succ n ih =>
    rw [catchUp_succ]
    split_ifs with h
    · refine le_trans ?_ (ih _ _)
      unfold bump
      split_ifs <;> simp
    · exact le_refl _

theorem processPacket_reord_mono (W L : List payload) (pos : Nat) (m : payload) (st : State) :
    st.1.reordPkts ≤ (processPacket W L pos m st).1.reordPkts := by
  obtain ⟨loc, sn⟩ := st
  cases he : sn m.Id with
  | none => rw [processPacket_none _ _ _ _ _ _ he]; simp [accum]
  | some e =>
    by_cases h : m.Serial < e
    · rw [processPacket_late _ _ _ _ _ _ e he h]; simp [accum]
    · rw [processPacket_ahead _ _ _ _ _ _ e he (by omega)]
      have := catchUp_reord_mono W L pos m (m.Serial - e).toNat (accum m loc) sn
      simp only [accum, updateRtt_reordPkts] at this
      simpa [accum] using this

theorem processLoop_reord_mono (W L : List payload) (rest : List payload) (pos : Nat)
    (st : State) : st.1.reordPkts ≤ (processLoop W L pos rest st).1.reordPkts := by
  induction rest generalizing pos st with
  | nil => rw [processLoop_nil]
  | cons m rest ih =>
    rw [processLoop_cons]
    exact le_trans (processPacket_reord_mono W L pos m st) (ih _ _)

theorem process_reord_nonneg (W L : List payload) (T : IntMap) :
    0 ≤ (process W L T).1.reordPkts :=
  processLoop_reord_mono W L W 0
    ({ packetStats.zero with dropPkts := (fastForward T W).1 }, (fastForward T W).2)

theorem process_rcvd_eq (W L : List payload) (T : IntMap) :
    (process W L T).1.rcvdPkts = W.length + (process W L T).1.reordPkts := by
  have h := processLoop_balance W L W 0
    ({ packetStats.zero with dropPkts := (fastForward T W).1 }, (fastForward T W).2)
  have h0 : (process W L T).1.rcvdPkts - (process W L T).1.reordPkts = 0 - 0 + W.length := h
  omega

/-- What holds of the average RTT that `statsPrint` computes from the interval stats of a
non-empty closed window whose packets all have a strictly positive RTT: it never exceeds
`maxRtt`, and it is at least `minRtt` when no packet was counted as reordered. -/
theorem average_rtt_bounds (W L : List payload) (T : IntMap) (hne : W ≠ [])
    (hpos : ∀ p ∈ W, 0 < p.Rts - p.Cts) :
    Int.tdiv (process W L T).1.totRtt (process W L T).1.rcvdPkts ≤ (process W L T).1.maxRtt
      ∧ ((process W L T).1.reordPkts = 0 →
          (process W L T).1.minRtt
            ≤ Int.tdiv (process W L T).1.totRtt (process W L T).1.rcvdPkts) := by
  obtain ⟨⟨⟨q, hq, hqmin⟩, hmin⟩, ⟨_, hmax⟩, htot⟩ := process_rtt_facts W L T hne hpos
  have hrcvd := process_rcvd_eq W L T
  have hre := process_reord_nonneg W L T
  have hlen : 0 < W.length := List.length_pos.mpr hne
  have hminpos : 0 < (process W L T).1.minRtt := by rw [← hqmin]; exact hpos q hq
  have hmaxpos : 0 < (process W L T).1.maxRtt := lt_of_lt_of_le (hpos q hq) (hmax q hq)
  have hsum_le : (process W L T).1.totRtt ≤ W.length * (process W L T).1.maxRtt := by
    rw [htot]
    have := List.sum_le_card_nsmul (W.map (fun p => p.Rts - p.Cts)) (process W L T).1.maxRtt
      (by
        intro x hx
        obtain ⟨p, hp, rfl⟩ := List.mem_map.mp hx
        exact hmax p hp)
    simpa using this
  have hsum_ge : W.length * (process W L T).1.minRtt ≤ (process W L T).1.totRtt := by
    rw [htot]
    have := List.card_nsmul_le_sum (W.map (fun p => p.Rts - p.Cts)) (process W L T).1.minRtt
      (by
        intro x hx
        obtain ⟨p, hp, rfl⟩ := List.mem_map.mp hx
        exact hmin p hp)
    simpa using this
  have hrpos : 0 < (process W L T).1.rcvdPkts := by
    rw [hrcvd]
    have : (0 : Int) < W.length := by exact_mod_cast hlen
    omega
  have htotnn : 0 ≤ (process W L T).1.totRtt := by
    refine le_trans ?_ hsum_ge
    positivity
  rw [Int.tdiv_eq_ediv htotnn (le_of_lt hrpos)]
  constructor
  · apply Int.ediv_le_of_le_mul hrpos
    refine le_trans hsum_le ?_
    rw [mul_comm]
    apply mul_le_mul_of_nonneg_left _ (le_of_lt hmaxpos)
    rw [hrcvd]
    omega
  · intro h0
    apply Int.le_ediv_of_mul_le hrpos
    rw [hrcvd, h0, add_zero, mul_comm]
    exact hsum_ge

/-- Folding `statsUpdate` over intervals that all have an RTT sample, from cumulative stats
whose minimum is set: the cumulative minimum becomes the least of the old minimum and the
interval minima. -/
theorem foldl_statsUpdate_minRtt (Is : List packetStats) (G : packetStats) (hG : 0 < G.minRtt)
    (hpos : ∀ I ∈ Is, 0 < I.minRtt) :
    0 < (Is.foldl statsUpdate G).minRtt
      ∧ (Is.foldl statsUpdate G).minRtt ≤ G.minRtt
      ∧ (∀ I ∈ Is, (Is.foldl statsUpdate G).minRtt ≤ I.minRtt)
      ∧ ((Is.foldl statsUpdate G).minRtt = G.minRtt
          ∨ ∃ I ∈ Is, I.minRtt = (Is.foldl statsUpdate G).minRtt) := by
  induction Is generalizing G with
  | nil => simp [hG]
  | cons J Is ih =>
    have hJ : 0 < J.minRtt := hpos J (List.mem_cons_self _ _)
    have e1 : (statsUpdate G J).minRtt = min G.minRtt J.minRtt := by
      rw [statsUpdate_minRtt, min_def]
      split_ifs <;> omega
    have hG' : 0 < (statsUpdate G J).minRtt := by
      rw [e1]; exact lt_min hG hJ
    obtain ⟨h1, h2, h3, h4⟩ := ih (statsUpdate G J) hG'
      (fun I hI => hpos I (List.mem_cons_of_mem _ hI))
    rw [List.foldl_cons]
    rw [e1] at h2 h4
    refine ⟨h1, le_trans h2 (min_le_left _ _), ?_, ?_⟩
    · intro I hI
      rcases List.mem_cons.mp hI with h | h
      · rw [h]; exact le_trans h2 (min_le_right _ _)
      · exact h3 I h
    · rcases h4 with h | ⟨I, hI, hIe⟩
      · rcases min_choice G.minRtt J.minRtt with hc | hc
        · left; rw [h, hc]
        · right; exact ⟨J, List.mem_cons_self _ _, by rw [h, hc]⟩
      · right; exact ⟨I, List.mem_cons_of_mem _ hI, hIe⟩

/-! ## The claims -/

/-- C1. A closed window that holds exactly the packets of one identity `i` with the serials
`s`, `s + 1`, ..., `s + k - 1` in that arrival order, with an empty lookahead and a tracker
that has no entry for `i` or expects `s`: nothing is dropped, duplicated or reordered and
`k` packets are received. -/
theorem C1_in_order_run (i s : Int) (k : Nat) (W : List payload) (T : IntMap) (hk : 1 ≤ k)
    (hId : W.map payload.Id = List.replicate k i)
    (hSer : W.map payload.Serial = (List.range k).map (fun (j : Nat) => s + (j : Int)))
    (hT : T i = none ∨ T i = some s) :
    (process W [] T).1.dropPkts = 0 ∧ (process W [] T).1.dupPkts = 0
      ∧ (process W [] T).1.reordPkts = 0 ∧ (process W [] T).1.rcvdPkts = k := by
  obtain ⟨hrun, hlen⟩ := isRun_of_maps i W s k hId hSer
  cases W with
  | nil => simp at hlen; omega
  | cons p W =>
    obtain ⟨hf1, hf2⟩ := fastForward_at_expected T i s p W hrun.id_eq hrun.2.1 hT
    obtain ⟨g1, g2, g3, g4, _, _⟩ := processLoop_run i (p :: W) [] (p :: W) [] s 0
      { packetStats.zero with dropPkts := (fastForward T (p :: W)).1 }
      (fastForward T (p :: W)).2 (by simp) hrun (by simp) (by rw [hf2]; exact hT)
    unfold process
    refine ⟨?_, ?_, ?_, ?_⟩
    · rw [g2]; exact hf1
    · rw [g4 rfl]; rfl
    · rw [g3]; rfl
    · rw [g1, hlen]; simp [packetStats.zero]

theorem C1_in_order_run_witness :
    (process [⟨7, 10, 0, 100, 130⟩, ⟨7, 11, 0, 200, 220⟩, ⟨7, 12, 0, 300, 340⟩] []
        emptyMap).1.dropPkts = 0
      ∧ (process [⟨7, 10, 0, 100, 130⟩, ⟨7, 11, 0, 200, 220⟩, ⟨7, 12, 0, 300, 340⟩] []
        emptyMap).1.dupPkts = 0
      ∧ (process [⟨7, 10, 0, 100, 130⟩, ⟨7, 11, 0, 200, 220⟩, ⟨7, 12, 0, 300, 340⟩] []
        emptyMap).1.reordPkts = 0
      ∧ (process [⟨7, 10, 0, 100, 130⟩, ⟨7, 11, 0, 200, 220⟩, ⟨7, 12, 0, 300, 340⟩] []
        emptyMap).1.rcvdPkts = (3 : Nat) :=
  C1_in_order_run 7 10 3 _ emptyMap (by decide) (by decide) (by decide) (Or.inl rfl)

/-- C2. A closed window of one identity `i` that lists, in increasing order, every serial of
`s .. s + k` except one interior value `m`, with a tracker that has no entry for `i` or
expects `s`, and a lookahead with no packet carrying `(i, m)`: exactly one packet is
dropped, and the tracker ends at `s + k + 1`, above the missing serial. -/
theorem C2_single_missing_serial (i s m : Int) (k : Nat) (W L : List payload) (T : IntMap)
    (hId : ∀ p ∈ W, p.Id = i)
    (hSer : W.map payload.Serial
      = ((List.range (k + 1)).map (fun (j : Nat) => s + (j : Int))).filter
          (fun x => decide (x ≠ m)))
    (hsm : s < m) (hmk : m < s + k) (hT : T i = none ∨ T i = some s)
    (hL : ∀ p ∈ L, ¬ (p.Id = i ∧ p.Serial = m)) :
    (process W L T).1.dropPkts = 1 ∧ (process W L T).2 i = some (s + k + 1)
      ∧ m < s + k + 1 := by
  rw [range_without s m k hsm hmk] at hSer
  obtain ⟨a, ha⟩ : ∃ a : Nat, m - s = a := ⟨(m - s).toNat, by omega⟩
  obtain ⟨b, hb⟩ : ∃ b : Nat, s + k - m = b := ⟨(s + k - m).toNat, by omega⟩
  rw [ha, hb, Int.toNat_ofNat, Int.toNat_ofNat] at hSer
  have hWsplit : W = W.take a ++ W.drop a := (List.take_append_drop a W).symm
  have hA : (W.take a).map payload.Serial
      = (List.range a).map (fun (j : Nat) => s + (j : Int)) := by
    rw [List.map_take, hSer, List.take_left' (by simp)]
  have hB : (W.drop a).map payload.Serial
      = (List.range b).map (fun (j : Nat) => m + 1 + (j : Int)) := by
    rw [List.map_drop, hSer, List.drop_left' (by simp)]
  obtain ⟨hrunA, hlenA⟩ := isRun_of_serials i (W.take a) s a
    (fun p hp => hId p (List.mem_of_mem_take hp)) hA
  obtain ⟨hrunB, hlenB⟩ := isRun_of_serials i (W.drop a) (m + 1) b
    (fun p hp => hId p (List.mem_of_mem_drop hp)) hB
  generalize W.take a = A at hWsplit hrunA hlenA
  generalize W.drop a = B at hWsplit hrunB hlenB
  subst hWsplit
  have hAne : A ≠ [] := by
    intro h; rw [h] at hlenA; simp at hlenA; omega
  have hBne : B ≠ [] := by
    intro h; rw [h] at hlenB; simp at hlenB; omega
  obtain ⟨pa, A', rfl⟩ := List.exists_cons_of_ne_nil hAne
  obtain ⟨hf1, hf2⟩ := fastForward_at_expected T i s pa (A' ++ B)
    (by simpa using hId) hrunA.2.1 hT
  rw [← List.cons_append] at hf1 hf2
  have h := processLoop_one_gap i s m L (pa :: A') B
    { packetStats.zero with dropPkts := (fastForward T (pa :: A' ++ B)).1 }
    (fastForward T (pa :: A' ++ B)).2 hrunA hAne hrunB hBne (by rw [hlenA]; omega) hL
    (by rw [hf2]; exact hT)
  refine ⟨h.1.trans ?_, h.2.trans ?_, by omega⟩
  · show (fastForward T (pa :: A' ++ B)).1 + 1 = 1
    rw [hf1]; rfl
  · rw [hlenB]
    congr 1
    omega

theorem C2_single_missing_serial_witness :
    (process [⟨7, 10, 0, 0, 5⟩, ⟨7, 11, 0, 0, 5⟩, ⟨7, 13, 0, 0, 5⟩, ⟨7, 14, 0, 0, 5⟩]
        [⟨7, 15, 0, 0, 5⟩, ⟨8, 12, 0, 0, 5⟩] emptyMap).1.dropPkts = 1
      ∧ (process [⟨7, 10, 0, 0, 5⟩, ⟨7, 11, 0, 0, 5⟩, ⟨7, 13, 0, 0, 5⟩, ⟨7, 14, 0, 0, 5⟩]
        [⟨7, 15, 0, 0, 5⟩, ⟨8, 12, 0, 0, 5⟩] emptyMap).2 7 = some (10 + (4 : Nat) + 1)
      ∧ (12 : Int) < 10 + (4 : Nat) + 1 :=
  C2_single_missing_serial 7 10 12 4 _ _ emptyMap (by decide) (by decide) (by decide)
    (by decide) (Or.inl rfl) (by decide)

/-- C3. For every identity `i` and serial `N`, with the tracker expecting `N` for `i`, the
closed window `[N + 1, N]` with an empty lookahead gives one reordered packet, no drop and no
duplicate; the code counts three received packets for the two packets of the window, the
packet with serial `N` being counted twice. -/
theorem C3_reordered_pair_received (T : IntMap) (i N : Int) (p q : payload)
    (hp : p.Id = i ∧ p.Serial = N + 1) (hq : q.Id = i ∧ q.Serial = N) (hT : T i = some N) :
    (process [p, q] [] T).1.reordPkts = 1 ∧ (process [p, q] [] T).1.dropPkts = 0
      ∧ (process [p, q] [] T).1.dupPkts = 0 ∧ (process [p, q] [] T).1.rcvdPkts = 3 := by
  obtain ⟨hf1, hf2⟩ := fastForward_pair_not_behind T i N p q hp hq hT
  obtain ⟨h1, h2, h3, h4⟩ := processLoop_swapped_pair i N p q hp hq
    { packetStats.zero with dropPkts := (fastForward T [p, q]).1 } (fastForward T [p, q]).2
    (by rw [hf2]; exact hT)
  exact ⟨h1.trans rfl, h2.trans hf1, h3.trans rfl, h4.trans rfl⟩

theorem C3_reordered_pair_received_witness :
    (process [⟨1, 6, 0, 0, 3⟩, ⟨1, 5, 0, 10, 14⟩] [] (mset emptyMap 1 5)).1.reordPkts = 1
      ∧ (process [⟨1, 6, 0, 0, 3⟩, ⟨1, 5, 0, 10, 14⟩] [] (mset emptyMap 1 5)).1.dropPkts = 0
      ∧ (process [⟨1, 6, 0, 0, 3⟩, ⟨1, 5, 0, 10, 14⟩] [] (mset emptyMap 1 5)).1.dupPkts = 0
      ∧ (process [⟨1, 6, 0, 0, 3⟩, ⟨1, 5, 0, 10, 14⟩] [] (mset emptyMap 1 5)).1.rcvdPkts = 3 :=
  C3_reordered_pair_received (mset emptyMap 1 5) 1 5 _ _ ⟨rfl, rfl⟩ ⟨rfl, rfl⟩ rfl

/-- C4, as the code has it. A closed window of two packets that both carry `(i, s)`, with an
empty lookahead and a tracker that holds an expected value `e` for `i`: one duplicate is
counted when `e ≤ s`, none when `e > s` (a packet behind the cursor is counted as received
only). -/
theorem C4_duplicate_pair (T : IntMap) (i s e : Int) (p q : payload)
    (hp : p.Id = i ∧ p.Serial = s) (hq : q.Id = i ∧ q.Serial = s) (hT : T i = some e) :
    (process [p, q] [] T).1.dupPkts = if e ≤ s then 1 else 0 := by
  have hmin := minSerial_pair i s p q hp hq
  have hff : (fastForward T [p, q]).2 i = some (max e s) := by
    rw [fastForward_snd]
    by_cases hb : e < s
    · rw [if_pos ((isBehind_iff T _ i).mpr ⟨e, s, hT, hmin, hb⟩), hmin, max_eq_right (le_of_lt hb)]
    · rw [if_neg, hT, max_eq_left (not_lt.mp hb)]
      intro h
      obtain ⟨e', m', h1, h2, h3⟩ := (isBehind_iff T _ i).mp h
      rw [hT] at h1; rw [hmin] at h2
      cases h1; cases h2
      exact hb h3
  have h := processLoop_pair i s (max e s) p q hp hq
    { packetStats.zero with dropPkts := (fastForward T [p, q]).1 } (fastForward T [p, q]).2 hff
    (le_max_right _ _)
  refine h.trans ?_
  show (0 : Int) + _ = _
  rw [zero_add]
  by_cases hes : e ≤ s
  · rw [if_pos hes, if_pos (max_eq_right hes)]
  · rw [if_neg hes, if_neg]
    rw [max_eq_left (by omega)]
    omega

theorem C4_duplicate_pair_witness :
    (process [⟨1, 5, 0, 0, 3⟩, ⟨1, 5, 0, 10, 14⟩] [] (mset emptyMap 1 2)).1.dupPkts = 1
      ∧ (process [⟨1, 5, 0, 0, 3⟩, ⟨1, 5, 0, 10, 14⟩] [] (mset emptyMap 1 5)).1.dupPkts = 1
      ∧ (process [⟨1, 5, 0, 0, 3⟩, ⟨1, 5, 0, 10, 14⟩] [] (mset emptyMap 1 9)).1.dupPkts = 0 :=
  ⟨(C4_duplicate_pair (mset emptyMap 1 2) 1 5 2 _ _ ⟨rfl, rfl⟩ ⟨rfl, rfl⟩ rfl).trans
      (by decide),
    (C4_duplicate_pair (mset emptyMap 1 5) 1 5 5 _ _ ⟨rfl, rfl⟩ ⟨rfl, rfl⟩ rfl).trans
      (by decide),
    (C4_duplicate_pair (mset emptyMap 1 9) 1 5 9 _ _ ⟨rfl, rfl⟩ ⟨rfl, rfl⟩ rfl).trans
      (by decide)⟩

/-- C4. Counterexample to the claim as stated: with the tracker already expecting serial 6
for identity 1, two packets that both carry `(1, 5)` are counted as no duplicate at all. -/
theorem C4_counterexample :
    ¬ ((process [⟨1, 5, 0, 0, 3⟩, ⟨1, 5, 0, 10, 14⟩] [] (mset emptyMap 1 6)).1.dupPkts = 1) := by
  decide

/-- C5. `fastForward` returns the sum, over the identities that occur in the window and
have a tracker entry strictly below the least serial they carry there, of that least serial
minus the entry; the entry of each such identity becomes that least serial, every other
entry is unchanged, and no entry is created. With an entry of 5 and a least serial of 9 for
the only identity of the window, the value returned is 4 and the entry becomes 9. -/
theorem C5_fastForward_counts_gap (T : IntMap) (W : List payload) :
    (fastForward T W).1
        = Finset.sum ((W.map payload.Id).toFinset.filter (fun i => isBehind T W i = true))
            (fun i => (minSerial W i).getD 0 - mget T i)
      ∧ (∀ i, isBehind T W i = true ↔ ∃ e m, T i = some e ∧ minSerial W i = some m ∧ e < m)
      ∧ (∀ i e m, T i = some e → minSerial W i = some m → e < m →
          (fastForward T W).2 i = some m)
      ∧ (∀ i, ¬ (∃ e m, T i = some e ∧ minSerial W i = some m ∧ e < m) →
          (fastForward T W).2 i = T i)
      ∧ (∀ i, T i = none → (fastForward T W).2 i = none)
      ∧ (∀ i, T i = some 5 → minSerial W i = some 9 → (∀ p ∈ W, p.Id = i) →
          (fastForward T W).1 = 4 ∧ (fastForward T W).2 i = some 9) := by
  refine ⟨fastForward_fst T W, isBehind_iff T W, ?_, ?_, ?_, ?_⟩
  · intro i e m h1 h2 h3
    rw [fastForward_snd, if_pos ((isBehind_iff T W i).mpr ⟨e, m, h1, h2, h3⟩), h2]
  · intro i h
    rw [fastForward_snd, if_neg (fun hb => h ((isBehind_iff T W i).mp hb))]
  · intro i h
    rw [fastForward_snd, if_neg]
    · exact h
    · intro hb
      obtain ⟨e, m, h1, _, _⟩ := (isBehind_iff T W i).mp hb
      rw [h] at h1
      exact Option.noConfusion h1
  · intro i h1 h2 h3
    have hb : isBehind T W i = true := (isBehind_iff T W i).mpr ⟨5, 9, h1, h2, by norm_num⟩
    constructor
    · rw [fastForward_fst_superset T W {i}]
      · simp [ffGap, hb, h2, mget_of_some h1]
      · intro k hk
        simp only [List.mem_toFinset, List.mem_map] at hk
        obtain ⟨p, hp, hpk⟩ := hk
        rw [← hpk, h3 p hp]
        exact Finset.mem_singleton_self i
    · rw [fastForward_snd, if_pos hb, h2]

theorem C5_fastForward_counts_gap_witness :
    (fastForward (mset emptyMap 1 5) [⟨1, 11, 0, 0, 3⟩, ⟨1, 9, 0, 10, 14⟩]).1 = 4
      ∧ (fastForward (mset emptyMap 1 5) [⟨1, 11, 0, 0, 3⟩, ⟨1, 9, 0, 10, 14⟩]).2 1 = some 9 :=
  (C5_fastForward_counts_gap (mset emptyMap 1 5)
    [⟨1, 11, 0, 0, 3⟩, ⟨1, 9, 0, 10, 14⟩]).2.2.2.2.2 1 rfl (by decide) (by decide)

/-- C6. On the closed window of identity 1 with serials `[1, 2, 4, 3, 4]`, an empty lookahead
and an empty tracker, the code returns no drop, one reordered packet, one duplicate, leaves
the tracker at 5, and counts six received packets for the five packets of the window. -/
theorem C6_end_to_end_received :
    (process [⟨1, 1, 0, 0, 3⟩, ⟨1, 2, 0, 0, 3⟩, ⟨1, 4, 0, 0, 3⟩, ⟨1, 3, 0, 0, 3⟩, ⟨1, 4, 0, 0, 3⟩]
        [] emptyMap).1.dropPkts = 0
      ∧ (process [⟨1, 1, 0, 0, 3⟩, ⟨1, 2, 0, 0, 3⟩, ⟨1, 4, 0, 0, 3⟩, ⟨1, 3, 0, 0, 3⟩,
          ⟨1, 4, 0, 0, 3⟩] [] emptyMap).1.reordPkts = 1
      ∧ (process [⟨1, 1, 0, 0, 3⟩, ⟨1, 2, 0, 0, 3⟩, ⟨1, 4, 0, 0, 3⟩, ⟨1, 3, 0, 0, 3⟩,
          ⟨1, 4, 0, 0, 3⟩] [] emptyMap).1.dupPkts = 1
      ∧ (process [⟨1, 1, 0, 0, 3⟩, ⟨1, 2, 0, 0, 3⟩, ⟨1, 4, 0, 0, 3⟩, ⟨1, 3, 0, 0, 3⟩,
          ⟨1, 4, 0, 0, 3⟩] [] emptyMap).2 1 = some 5
      ∧ (process [⟨1, 1, 0, 0, 3⟩, ⟨1, 2, 0, 0, 3⟩, ⟨1, 4, 0, 0, 3⟩, ⟨1, 3, 0, 0, 3⟩,
          ⟨1, 4, 0, 0, 3⟩] [] emptyMap).1.rcvdPkts = 6 := by
  decide

/-- C7. From an empty tracker, the closed window `[serial 1]` of identity 1 is counted as one
received packet and no drop, whatever the lookahead (empty, or the next window), and leaves
the tracker expecting 2. On that tracker the closed window `[serial 3]` with an empty
lookahead gives one drop, one received packet, nothing reordered or duplicated; the drop is
the value returned by `fastForward`, which moves the tracker from 2 to 3. -/
theorem C7_gap_between_windows (pb1 c1 r1 pb3 c3 r3 : Int) (L1 : List payload) :
    (process [⟨1, 1, pb1, c1, r1⟩] L1 emptyMap).1.rcvdPkts = 1
      ∧ (process [⟨1, 1, pb1, c1, r1⟩] L1 emptyMap).1.dropPkts = 0
      ∧ (process [⟨1, 1, pb1, c1, r1⟩] L1 emptyMap).2 1 = some 2
      ∧ minSerial [⟨1, 3, pb3, c3, r3⟩] 1 = some 3
      ∧ (fastForward (process [⟨1, 1, pb1, c1, r1⟩] L1 emptyMap).2 [⟨1, 3, pb3, c3, r3⟩]).1 = 1
      ∧ (fastForward (process [⟨1, 1, pb1, c1, r1⟩] L1 emptyMap).2 [⟨1, 3, pb3, c3, r3⟩]).2 1
          = some 3
      ∧ (process [⟨1, 3, pb3, c3, r3⟩] []
          (process [⟨1, 1, pb1, c1, r1⟩] L1 emptyMap).2).1.dropPkts = 1
      ∧ (process [⟨1, 3, pb3, c3, r3⟩] []
          (process [⟨1, 1, pb1, c1, r1⟩] L1 emptyMap).2).1.rcvdPkts = 1
      ∧ (process [⟨1, 3, pb3, c3, r3⟩] []
          (process [⟨1, 1, pb1, c1, r1⟩] L1 emptyMap).2).1.reordPkts = 0
      ∧ (process [⟨1, 3, pb3, c3, r3⟩] []
          (process [⟨1, 1, pb1, c1, r1⟩] L1 emptyMap).2).1.dupPkts = 0 := by
  -- first window
  obtain ⟨hf1, hf2⟩ := fastForward_at_expected emptyMap 1 1 ⟨1, 1, pb1, c1, r1⟩ []
    (by simp) rfl (Or.inl rfl)
  obtain ⟨a1, a2, _, _, a5, _⟩ := processLoop_run 1 [⟨1, 1, pb1, c1, r1⟩] L1
    [⟨1, 1, pb1, c1, r1⟩] [] 1 0
    { packetStats.zero with dropPkts := (fastForward emptyMap [⟨1, 1, pb1, c1, r1⟩]).1 }
    (fastForward emptyMap [⟨1, 1, pb1, c1, r1⟩]).2 (by simp) ⟨rfl, rfl, trivial⟩ (by simp)
    (Or.inl (by rw [hf2]; rfl))
  have hT1 : (process [⟨1, 1, pb1, c1, r1⟩] L1 emptyMap).2 1 = some 2 :=
    (a5 (by simp)).trans (by norm_num)
  have hmin : minSerial [⟨1, 3, pb3, c3, r3⟩] 1 = some 3 := by
    simp [minSerial]
  have hb : isBehind (process [⟨1, 1, pb1, c1, r1⟩] L1 emptyMap).2 [⟨1, 3, pb3, c3, r3⟩] 1
      = true := (isBehind_iff _ _ 1).mpr ⟨2, 3, hT1, hmin, by norm_num⟩
  have hg1 : (fastForward (process [⟨1, 1, pb1, c1, r1⟩] L1 emptyMap).2
      [⟨1, 3, pb3, c3, r3⟩]).1 = 1 := by
    rw [fastForward_fst_superset _ _ {1} (by simp)]
    simp [ffGap, hb, hmin, mget_of_some hT1]
  have hg2 : (fastForward (process [⟨1, 1, pb1, c1, r1⟩] L1 emptyMap).2
      [⟨1, 3, pb3, c3, r3⟩]).2 1 = some 3 := by
    rw [fastForward_snd, if_pos hb, hmin]
  obtain ⟨b1, b2, b3, b4, _, _⟩ := processLoop_run 1 [⟨1, 3, pb3, c3, r3⟩] []
    [⟨1, 3, pb3, c3, r3⟩] [] 3 0
    { packetStats.zero with dropPkts := (fastForward
        (process [⟨1, 1, pb1, c1, r1⟩] L1 emptyMap).2 [⟨1, 3, pb3, c3, r3⟩]).1 }
    (fastForward (process [⟨1, 1, pb1, c1, r1⟩] L1 emptyMap).2 [⟨1, 3, pb3, c3, r3⟩]).2
    (by simp) ⟨rfl, rfl, trivial⟩ (by simp) (Or.inr hg2)
  refine ⟨a1.trans (by simp [packetStats.zero]), a2.trans hf1, hT1, hmin, hg1, hg2,
    b2.trans hg1, b1.trans (by simp [packetStats.zero]), b3.trans rfl, (b4 rfl).trans rfl⟩

/-- C8. Serial Tracker invariant: after `process`, every identity that had a tracker entry
still has one, with a value at least as large as before, and every identity that occurs in
the closed window has an entry. -/
theorem C8_tracker_never_decreases (W L : List payload) (T : IntMap) :
    (∀ i e, T i = some e → ∃ e', (process W L T).2 i = some e' ∧ e ≤ e')
      ∧ (∀ p ∈ W, (process W L T).2 p.Id ≠ none) := by
  constructor
  · intro i e he
    obtain ⟨e1, h1, h2⟩ := fastForward_mono T W i e he
    obtain ⟨e2, h3, h4⟩ := processLoop_mono W L W 0
      ({ packetStats.zero with dropPkts := (fastForward T W).1 }, (fastForward T W).2) i e1 h1
    exact ⟨e2, h3, le_trans h2 h4⟩
  · intro p hp
    exact processLoop_has W L W 0 _ p hp

theorem C8_tracker_never_decreases_witness :
    (∃ e', (process [⟨1, 7, 0, 0, 3⟩, ⟨2, 4, 0, 10, 14⟩] [] (mset emptyMap 1 5)).2 1 = some e'
        ∧ 5 ≤ e')
      ∧ (process [⟨1, 7, 0, 0, 3⟩, ⟨2, 4, 0, 10, 14⟩] [] (mset emptyMap 1 5)).2 2 ≠ none :=
  ⟨(C8_tracker_never_decreases [⟨1, 7, 0, 0, 3⟩, ⟨2, 4, 0, 10, 14⟩] [] (mset emptyMap 1 5)).1
      1 5 rfl,
    (C8_tracker_never_decreases [⟨1, 7, 0, 0, 3⟩, ⟨2, 4, 0, 10, 14⟩] [] (mset emptyMap 1 5)).2
      ⟨2, 4, 0, 10, 14⟩ (by decide)⟩

/-- C9. Classification is scoped per identity: each of the four counts returned by
`process` on a closed window, lookahead and tracker is the sum of the counts of `process`
on the packets of identity `i` alone and on the packets of the other identities alone
(arrival order kept, same starting tracker); the resulting tracker agrees with the first
run at `i` and with the second run at every other identity. -/
theorem C9_classification_per_identity (W L : List payload) (T : IntMap) (i : Int) :
    (process W L T).1.rcvdPkts
        = (process (onlyId i W) (onlyId i L) T).1.rcvdPkts
          + (process (exceptId i W) (exceptId i L) T).1.rcvdPkts
      ∧ (process W L T).1.dropPkts
        = (process (onlyId i W) (onlyId i L) T).1.dropPkts
          + (process (exceptId i W) (exceptId i L) T).1.dropPkts
      ∧ (process W L T).1.dupPkts
        = (process (onlyId i W) (onlyId i L) T).1.dupPkts
          + (process (exceptId i W) (exceptId i L) T).1.dupPkts
      ∧ (process W L T).1.reordPkts
        = (process (onlyId i W) (onlyId i L) T).1.reordPkts
          + (process (exceptId i W) (exceptId i L) T).1.reordPkts
      ∧ (process W L T).2 i = (process (onlyId i W) (onlyId i L) T).2 i
      ∧ ∀ j, j ≠ i → (process W L T).2 j = (process (exceptId i W) (exceptId i L) T).2 j := by
  obtain ⟨hf1, hf2, hf3⟩ := fastForward_split T W i
  have h := processLoop_split i W L (onlyId i W) (onlyId i L) (exceptId i W) (exceptId i L)
    (fun s => occ_onlyId i s L) (fun j s hj => occ_exceptId s L hj) W 0 0 0
    ({ packetStats.zero with dropPkts := (fastForward T W).1 }, (fastForward T W).2)
    ({ packetStats.zero with dropPkts := (fastForward T (onlyId i W)).1 },
      (fastForward T (onlyId i W)).2)
    ({ packetStats.zero with dropPkts := (fastForward T (exceptId i W)).1 },
      (fastForward T (exceptId i W)).2)
    rfl rfl rfl (by simp [SumCounts, packetStats.zero, hf1]) hf2 hf3
  obtain ⟨⟨h1, h2, h3, h4⟩, h5, h6⟩ := h
  exact ⟨h1, h2, h4, h3, h5, h6⟩

/-- C10. `statsUpdate` adds the interval value to the cumulative value of each of
`dropPkts`, `dupPkts`, `reordPkts`, `rcvdPkts`, `pbdropPkts` and `totRtt`, and leaves
`maxRtt` the larger of the cumulative and the interval `maxRtt`, so that the cumulative
maximum never decreases. -/
theorem C10_statsUpdate_merges (G L : packetStats) :
    (statsUpdate G L).dropPkts = G.dropPkts + L.dropPkts
      ∧ (statsUpdate G L).dupPkts = G.dupPkts + L.dupPkts
      ∧ (statsUpdate G L).reordPkts = G.reordPkts + L.reordPkts
      ∧ (statsUpdate G L).rcvdPkts = G.rcvdPkts + L.rcvdPkts
      ∧ (statsUpdate G L).pbdropPkts = G.pbdropPkts + L.pbdropPkts
      ∧ (statsUpdate G L).totRtt = G.totRtt + L.totRtt
      ∧ (statsUpdate G L).maxRtt = max G.maxRtt L.maxRtt
      ∧ G.maxRtt ≤ (statsUpdate G L).maxRtt := by
  have hmax : (statsUpdate G L).maxRtt = if L.maxRtt > G.maxRtt then L.maxRtt else G.maxRtt := by
    unfold statsUpdate; dsimp only; split_ifs <;> rfl
  refine ⟨?_, ?_, ?_, ?_, ?_, ?_, ?_, ?_⟩
  · unfold statsUpdate; dsimp only; split_ifs <;> rfl
  · unfold statsUpdate; dsimp only; split_ifs <;> rfl
  · unfold statsUpdate; dsimp only; split_ifs <;> rfl
  · unfold statsUpdate; dsimp only; split_ifs <;> rfl
  · unfold statsUpdate; dsimp only; split_ifs <;> rfl
  · unfold statsUpdate; dsimp only; split_ifs <;> rfl
  · rw [hmax]
    split_ifs with h
    · exact (max_eq_right (le_of_lt h)).symm
    · exact (max_eq_left (not_lt.mp h)).symm
  · rw [hmax]
    split_ifs with h
    · exact le_of_lt h
    · exact le_refl _

/-- C11. Three intervals folded into zero-valued cumulative stats: a closed window with one
packet of RTT 5, an empty closed window, a closed window with one packet of RTT 7. After the
first the cumulative minimum is 5; the empty interval resets it to 0 (unset); after the
third it is 7, not the smallest sample 5. -/
theorem C11_cumulative_min_reset :
    (process [⟨1, 1, 0, 100, 105⟩] [] emptyMap).1.minRtt = 5
      ∧ (process [] [] (mset emptyMap 1 2)).1.minRtt = 0
      ∧ (process [⟨1, 2, 0, 300, 307⟩] [] (mset emptyMap 1 2)).1.minRtt = 7
      ∧ (statsUpdate packetStats.zero (process [⟨1, 1, 0, 100, 105⟩] [] emptyMap).1).minRtt = 5
      ∧ (statsUpdate (statsUpdate packetStats.zero (process [⟨1, 1, 0, 100, 105⟩] [] emptyMap).1)
          (process [] [] (mset emptyMap 1 2)).1).minRtt = 0
      ∧ (List.foldl statsUpdate packetStats.zero
          [(process [⟨1, 1, 0, 100, 105⟩] [] emptyMap).1,
            (process [] [] (mset emptyMap 1 2)).1,
            (process [⟨1, 2, 0, 300, 307⟩] [] (mset emptyMap 1 2)).1]).minRtt = 7 := by
  decide

/-- C12. `statsPrint` returns on every input, so the integer division by the received count
is never evaluated with a zero divisor; it writes nothing when the received count is zero
and exactly one thing when it is not: the text line in text mode and, in structured mode,
the encoded record (the error line if the encoder reports an error). It leaves the interval
stats as they were, and the cumulative stats after a tick are those the accumulator
computed, whatever the mode. -/
theorem C12_statsPrint_guard (marshal : jsonReport → Except String String) (now : Int)
    (stats : packetStats) (printJson : String) (qlen qcap : Int) :
    statsPrint marshal now stats printJson qlen qcap ≠ none
      ∧ (stats.rcvdPkts = 0 →
          statsPrint marshal now stats printJson qlen qcap = some (stats, []))
      ∧ (stats.rcvdPkts ≠ 0 →
          ∃ o, statsPrint marshal now stats printJson qlen qcap = some (stats, [o]))
      ∧ (stats.rcvdPkts ≠ 0 → printJson = "text" →
          ∃ l, statsPrint marshal now stats printJson qlen qcap = some (stats, [Output.text l])
            ∧ l.avgRtt = Int.tdiv stats.totRtt stats.rcvdPkts
            ∧ l.droppedPct = ⟨stats.dropPkts, stats.rcvdPkts + stats.dropPkts⟩
            ∧ l.reorderedPct = ⟨stats.reordPkts, stats.rcvdPkts + stats.dropPkts⟩)
      ∧ (stats.rcvdPkts ≠ 0 → printJson ≠ "text" →
          ∀ b, marshal (reportOf now stats printJson qlen qcap
              (Int.tdiv stats.totRtt stats.rcvdPkts)) = Except.ok b →
            statsPrint marshal now stats printJson qlen qcap = some (stats, [Output.json b]))
      ∧ (∀ r, statsPrint marshal now stats printJson qlen qcap = some r → r.1 = stats)
      ∧ (∀ (s : Engine) r,
          statsEngineStep marshal printJson s (Event.tick now qlen qcap) = some r →
            r.1.glob = statsUpdate s.glob
              (process s.workWindow s.feedWindow s.serialNumbers).1) := by
  obtain ⟨out, hout, hlen⟩ := statsPrint_returns marshal now stats printJson qlen qcap
  refine ⟨by rw [hout]; simp, statsPrint_zero marshal now stats printJson qlen qcap,
    ?_, ?_, ?_, ?_, ?_⟩
  · intro h
    rw [if_neg h] at hlen
    obtain ⟨o, rfl⟩ := List.length_eq_one.mp hlen
    exact ⟨o, hout⟩
  · intro h hmode
    subst hmode
    exact ⟨_, statsPrint_text marshal now stats qlen qcap h, rfl, rfl, rfl⟩
  · intro h hmode b hb
    rw [statsPrint_json marshal now stats printJson qlen qcap h hmode, hb]
  · intro r hr
    rw [hout] at hr
    cases hr
    rfl
  · intro s r hr
    obtain ⟨o, ho, _⟩ := statsEngineStep_tick marshal printJson s now qlen qcap
    rw [ho] at hr
    cases hr
    rfl

/-- C13. At the tracker expecting serial 5 for identity 1 and the closed window `[6, 5]`,
both packets with an RTT of 10: `process` returns `minRtt = maxRtt = 10`, `totRtt = 20` and
a received count of 3, so that the average `statsPrint` computes is 6, below the minimum,
and the text line reports `fastest = 4`, a delta above the average. -/
theorem C13_average_below_minimum :
    (process [⟨1, 6, 0, 100, 110⟩, ⟨1, 5, 0, 200, 210⟩] [] (mset emptyMap 1 5)).1.minRtt = 10
      ∧ (process [⟨1, 6, 0, 100, 110⟩, ⟨1, 5, 0, 200, 210⟩] [] (mset emptyMap 1 5)).1.maxRtt = 10
      ∧ (process [⟨1, 6, 0, 100, 110⟩, ⟨1, 5, 0, 200, 210⟩] [] (mset emptyMap 1 5)).1.totRtt = 20
      ∧ (process [⟨1, 6, 0, 100, 110⟩, ⟨1, 5, 0, 200, 210⟩] [] (mset emptyMap 1 5)).1.rcvdPkts = 3
      ∧ statsPrint (fun _ => Except.ok "") 0
          (process [⟨1, 6, 0, 100, 110⟩, ⟨1, 5, 0, 200, 210⟩] [] (mset emptyMap 1 5)).1
          "text" 0 8
        = some ((process [⟨1, 6, 0, 100, 110⟩, ⟨1, 5, 0, 200, 210⟩] []
            (mset emptyMap 1 5)).1,
          [Output.text
            { received := 3, dropped := 0, droppedPct := ⟨0, 3⟩, reordered := 1,
              reorderedPct := ⟨1, 3⟩, duplicates := 0, avgRtt := 6, fastest := 4,
              slowest := 4, qlen := 0, qcap := 8, qdrops := 0 }])
      ∧ ¬ ((process [⟨1, 6, 0, 100, 110⟩, ⟨1, 5, 0, 200, 210⟩] []
            (mset emptyMap 1 5)).1.minRtt
          ≤ Int.tdiv
            (process [⟨1, 6, 0, 100, 110⟩, ⟨1, 5, 0, 200, 210⟩] [] (mset emptyMap 1 5)).1.totRtt
            (process [⟨1, 6, 0, 100, 110⟩, ⟨1, 5, 0, 200, 210⟩] []
              (mset emptyMap 1 5)).1.rcvdPkts) := by
  decide

/-- C14. For a non-empty closed window whose packets all have a strictly positive RTT, and
for every lookahead and tracker, `process` returns as `minRtt` the least RTT of the closed
window's packets, as `maxRtt` the greatest, and as `totRtt` their sum; the lookahead (and
the tracker) contribute nothing to these three fields. -/
theorem C14_interval_rtt (W L : List payload) (T : IntMap) (hne : W ≠ [])
    (hpos : ∀ p ∈ W, 0 < p.Rts - p.Cts) :
    ((∃ p ∈ W, p.Rts - p.Cts = (process W L T).1.minRtt)
        ∧ ∀ p ∈ W, (process W L T).1.minRtt ≤ p.Rts - p.Cts)
      ∧ ((∃ p ∈ W, p.Rts - p.Cts = (process W L T).1.maxRtt)
        ∧ ∀ p ∈ W, p.Rts - p.Cts ≤ (process W L T).1.maxRtt)
      ∧ (process W L T).1.totRtt = (W.map (fun p => p.Rts - p.Cts)).sum
      ∧ ∀ L' T', (process W L' T').1.minRtt = (process W L T).1.minRtt
          ∧ (process W L' T').1.maxRtt = (process W L T).1.maxRtt
          ∧ (process W L' T').1.totRtt = (process W L T).1.totRtt := by
  obtain ⟨h1, h2, h3⟩ := process_rtt_facts W L T hne hpos
  refine ⟨h1, h2, h3, ?_⟩
  intro L' T'
  have h := (process_rttPart W L' T').trans (process_rttPart W L T).symm
  simp only [rttPart, Prod.mk.injEq] at h
  exact h

theorem C14_interval_rtt_witness :
    ((∃ p ∈ [(⟨1, 4, 0, 100, 130⟩ : payload), ⟨2, 7, 0, 200, 210⟩, ⟨1, 3, 0, 300, 350⟩],
          p.Rts - p.Cts = (process [⟨1, 4, 0, 100, 130⟩, ⟨2, 7, 0, 200, 210⟩, ⟨1, 3, 0, 300, 350⟩]
            [⟨1, 5, 0, 400, 401⟩] emptyMap).1.minRtt)
        ∧ ∀ p ∈ [(⟨1, 4, 0, 100, 130⟩ : payload), ⟨2, 7, 0, 200, 210⟩, ⟨1, 3, 0, 300, 350⟩],
          (process [⟨1, 4, 0, 100, 130⟩, ⟨2, 7, 0, 200, 210⟩, ⟨1, 3, 0, 300, 350⟩]
            [⟨1, 5, 0, 400, 401⟩] emptyMap).1.minRtt ≤ p.Rts - p.Cts)
      ∧ (process [⟨1, 4, 0, 100, 130⟩, ⟨2, 7, 0, 200, 210⟩, ⟨1, 3, 0, 300, 350⟩]
            [⟨1, 5, 0, 400, 401⟩] emptyMap).1.totRtt = 30 + (10 + (50 + 0)) :=
  ⟨(C14_interval_rtt [⟨1, 4, 0, 100, 130⟩, ⟨2, 7, 0, 200, 210⟩, ⟨1, 3, 0, 300, 350⟩]
      [⟨1, 5, 0, 400, 401⟩] emptyMap (by decide) (by decide)).1,
    (C14_interval_rtt [⟨1, 4, 0, 100, 130⟩, ⟨2, 7, 0, 200, 210⟩, ⟨1, 3, 0, 300, 350⟩]
      [⟨1, 5, 0, 400, 401⟩] emptyMap (by decide) (by decide)).2.2.1⟩

/-- C15. Late packets count as received only: when every packet of the closed window has an
identity whose tracker entry is strictly greater than the packet's serial, `process` returns
received = length of the window, dropped = duplicate = reordered = 0, and leaves every
tracker entry unchanged, whatever the lookahead. -/
theorem C15_late_packets_received_only (W L : List payload) (T : IntMap)
    (h : ∀ p ∈ W, ∃ e, T p.Id = some e ∧ p.Serial < e) :
    (process W L T).1.rcvdPkts = W.length ∧ (process W L T).1.dropPkts = 0
      ∧ (process W L T).1.dupPkts = 0 ∧ (process W L T).1.reordPkts = 0
      ∧ ∀ j, (process W L T).2 j = T j := by
  obtain ⟨hf1, hf2⟩ := fastForward_of_not_behind T W (by
    intro k
    by_contra hb
    obtain ⟨e, m, h1, h2, h3⟩ := (isBehind_iff T W k).mp (by simpa using hb)
    obtain ⟨p, hp, hpk, hps⟩ := minSerial_mem W k m h2
    obtain ⟨e', he', hlt⟩ := h p hp
    rw [hpk, h1] at he'
    cases he'
    omega)
  have hfun : (fastForward T W).2 = T := funext hf2
  obtain ⟨h1, h2, h3, h4, h5⟩ := processLoop_all_late W L W 0
    { packetStats.zero with dropPkts := (fastForward T W).1 } (fastForward T W).2
    (by rw [hfun]; exact h)
  refine ⟨h1.trans (by simp [packetStats.zero]), h2.trans hf1, h3.trans rfl, h4.trans rfl, ?_⟩
  intro j
  have : (process W L T).2 = (fastForward T W).2 := h5
  rw [this, hfun]

theorem C15_late_packets_received_only_witness :
    (process [⟨1, 4, 0, 0, 3⟩, ⟨2, 7, 0, 10, 14⟩, ⟨1, 4, 0, 20, 25⟩] [⟨1, 5, 0, 30, 31⟩]
        (mset (mset emptyMap 1 6) 2 8)).1.rcvdPkts = (3 : Nat)
      ∧ (process [⟨1, 4, 0, 0, 3⟩, ⟨2, 7, 0, 10, 14⟩, ⟨1, 4, 0, 20, 25⟩] [⟨1, 5, 0, 30, 31⟩]
        (mset (mset emptyMap 1 6) 2 8)).1.dropPkts = 0
      ∧ (process [⟨1, 4, 0, 0, 3⟩, ⟨2, 7, 0, 10, 14⟩, ⟨1, 4, 0, 20, 25⟩] [⟨1, 5, 0, 30, 31⟩]
        (mset (mset emptyMap 1 6) 2 8)).1.dupPkts = 0
      ∧ (process [⟨1, 4, 0, 0, 3⟩, ⟨2, 7, 0, 10, 14⟩, ⟨1, 4, 0, 20, 25⟩] [⟨1, 5, 0, 30, 31⟩]
        (mset (mset emptyMap 1 6) 2 8)).1.reordPkts = 0
      ∧ ∀ j, (process [⟨1, 4, 0, 0, 3⟩, ⟨2, 7, 0, 10, 14⟩, ⟨1, 4, 0, 20, 25⟩]
        [⟨1, 5, 0, 30, 31⟩] (mset (mset emptyMap 1 6) 2 8)).2 j = mset (mset emptyMap 1 6) 2 8 j :=
  C15_late_packets_received_only _ _ _ (by decide)

/-- C16. One iteration of the engine loop. A packet arrival appends the packet at the end of
the open window and changes nothing else. A timer tick calls `process` on the closed window
with the open window as lookahead, folds the result into the cumulative stats with
`statsUpdate`, and ends with the former open window closed and an empty open window.
Consequently the packets `ps` that arrive between two ticks are the lookahead of the
classification at the second of them and the closed window of the classification at the
tick after. -/
theorem C16_engine_step (marshal : jsonReport → Except String String) (printJson : String)
    (s : Engine) :
    (∀ m, statsEngineStep marshal printJson s (Event.message m)
        = some ({ workWindow := s.workWindow, feedWindow := s.feedWindow ++ [m],
                  serialNumbers := s.serialNumbers, glob := s.glob }, []))
      ∧ (∀ now qlen qcap, ∃ out,
          statsEngineStep marshal printJson s (Event.tick now qlen qcap)
            = some ({ workWindow := s.feedWindow, feedWindow := [],
                      serialNumbers := (process s.workWindow s.feedWindow s.serialNumbers).2,
                      glob := statsUpdate s.glob
                        (process s.workWindow s.feedWindow s.serialNumbers).1 }, out))
      ∧ (∀ (ps qs : List payload) (now1 qlen1 qcap1 now2 qlen2 qcap2 : Int),
          s.feedWindow = [] → ∃ out,
            statsEngineRun marshal printJson s
                (ps.map Event.message ++ [Event.tick now1 qlen1 qcap1]
                  ++ qs.map Event.message ++ [Event.tick now2 qlen2 qcap2])
              = some ({ workWindow := qs, feedWindow := [],
                        serialNumbers :=
                          (process ps qs (process s.workWindow ps s.serialNumbers).2).2,
                        glob := statsUpdate
                          (statsUpdate s.glob (process s.workWindow ps s.serialNumbers).1)
                          (process ps qs (process s.workWindow ps s.serialNumbers).2).1 },
                      out)) := by
  refine ⟨fun m => rfl, ?_, ?_⟩
  · intro now qlen qcap
    obtain ⟨out, h, _⟩ := statsEngineStep_tick marshal printJson s now qlen qcap
    exact ⟨out, h⟩
  · intro ps qs now1 qlen1 qcap1 now2 qlen2 qcap2 hs
    have h1 := statsEngineRun_messages marshal printJson ps s
    rw [hs, List.nil_append] at h1
    obtain ⟨o2, h2⟩ := statsEngineRun_tick marshal printJson
      { s with feedWindow := ps } now1 qlen1 qcap1
    have h3 := statsEngineRun_messages marshal printJson qs
      { workWindow := ps, feedWindow := [],
        serialNumbers := (process s.workWindow ps s.serialNumbers).2,
        glob := statsUpdate s.glob (process s.workWindow ps s.serialNumbers).1 }
    obtain ⟨o4, h4⟩ := statsEngineRun_tick marshal printJson
      { workWindow := ps, feedWindow := [] ++ qs,
        serialNumbers := (process s.workWindow ps s.serialNumbers).2,
        glob := statsUpdate s.glob (process s.workWindow ps s.serialNumbers).1 }
      now2 qlen2 qcap2
    have h12 := statsEngineRun_append marshal printJson _ _ _ _ _ _ _ h1 h2
    have h123 := statsEngineRun_append marshal printJson _ _ _ _ _ _ _ h12 h3
    have h1234 := statsEngineRun_append marshal printJson _ _ _ _ _ _ _ h123 h4
    exact ⟨_, h1234⟩

/-- C17. For every closed window, lookahead and tracker, the received count returned by
`process` is the number of packets of the closed window plus the reordered count. -/
theorem C17_received_is_length_plus_reordered (W L : List payload) (T : IntMap) :
    (process W L T).1.rcvdPkts = W.length + (process W L T).1.reordPkts := by
  have h := processLoop_balance W L W 0
    ({ packetStats.zero with dropPkts := (fastForward T W).1 }, (fastForward T W).2)
  have h0 : (process W L T).1.rcvdPkts - (process W L T).1.reordPkts = 0 - 0 + W.length := h
  omega

/-- C18. Exact drop count for one identity. The closed window and the lookahead carry only
identity `i`, the tracker holds `e` for `i`, and `m` and `M` are the least and the greatest
serial of the (non-empty) closed window. Then `process` returns as dropped count
`max 0 (m - e)` plus the number of serials `s` with `max e m ≤ s ≤ M` that no packet of the
closed window and no packet of the lookahead carries. Serials below `m` are counted whether
or not the lookahead carries them. -/
theorem C18_exact_drop_count (i e m M : Int) (W L : List payload) (T : IntMap)
    (hT : T i = some e) (hW : ∀ p ∈ W, p.Id = i) (hL : ∀ p ∈ L, p.Id = i)
    (hm : (∃ p ∈ W, p.Serial = m) ∧ ∀ p ∈ W, m ≤ p.Serial)
    (hM : (∃ p ∈ W, p.Serial = M) ∧ ∀ p ∈ W, p.Serial ≤ M) :
    (process W L T).1.dropPkts
      = max 0 (m - e) + ((Finset.Icc (max e m) M).filter
          (fun s => (∀ p ∈ W, p.Serial ≠ s) ∧ (∀ p ∈ L, p.Serial ≠ s))).card := by
  obtain ⟨hf1, hf2⟩ := fastForward_single T i e m W hT hW hm
  have h := processLoop_drop_single i M W L W 0
    { packetStats.zero with dropPkts := (fastForward T W).1 } (fastForward T W).2 (max e m)
    rfl hW hf2 hM.2 (Or.inl hM.1)
  have hfilt : (Finset.Icc (max e m) M).filter (fun s => occ i s W = 0 ∧ occ i s L = 0)
      = (Finset.Icc (max e m) M).filter
          (fun s => (∀ p ∈ W, p.Serial ≠ s) ∧ (∀ p ∈ L, p.Serial ≠ s)) := by
    apply Finset.filter_congr
    intro s _
    rw [occ_eq_zero_iff_of_single i s W hW, occ_eq_zero_iff_of_single i s L hL]
  rw [hfilt] at h
  refine h.trans ?_
  show (fastForward T W).1 + _ = _
  rw [hf1]

theorem C18_exact_drop_count_witness :
    (process [⟨1, 9, 0, 0, 3⟩, ⟨1, 7, 0, 10, 14⟩, ⟨1, 12, 0, 20, 25⟩] [⟨1, 10, 0, 30, 31⟩,
        ⟨1, 4, 0, 40, 42⟩] (mset emptyMap 1 3)).1.dropPkts = 6 :=
  (C18_exact_drop_count 1 3 7 12 _ _ (mset emptyMap 1 3) rfl (by decide) (by decide)
    (by decide) (by decide)).trans (by decide)

/-- C19. The tracker entry of an identity `i` after `process`: unchanged (still absent if it
was absent) when no packet of the closed window carries `i`; otherwise, with `M` the
greatest serial carried by a packet of `i` in the closed window, `M + 1` when `i` had no
entry and the larger of the old entry and `M + 1` when it had one. The entry depends neither
on the lookahead nor on the arrival order within the closed window. -/
theorem C19_tracker_entry_after_process (W L : List payload) (T : IntMap) (i : Int) :
    ((∀ p ∈ W, p.Id ≠ i) → (process W L T).2 i = T i)
      ∧ (∀ M, (∃ p ∈ W, p.Id = i ∧ p.Serial = M) → (∀ p ∈ W, p.Id = i → p.Serial ≤ M) →
          (T i = none → (process W L T).2 i = some (M + 1))
            ∧ (∀ e, T i = some e → (process W L T).2 i = some (max e (M + 1))))
      ∧ (∀ W' L', W'.Perm W → (process W' L' T).2 i = (process W L T).2 i) := by
  refine ⟨?_, ?_, ?_⟩
  · intro h
    rw [process_entry, (maxSerial_eq_none_iff W i).mpr h]
  · intro M h1 h2
    have hM := (maxSerial_eq_some_iff W i M).mpr ⟨h1, h2⟩
    constructor
    · intro hT
      rw [process_entry, hM, hT]
    · intro e hT
      rw [process_entry, hM, hT]
  · intro W' L' hp
    rw [process_entry, process_entry, maxSerial_perm W W' i hp]

theorem C19_tracker_entry_after_process_witness :
    (process [⟨1, 7, 0, 0, 3⟩, ⟨1, 4, 0, 10, 14⟩, ⟨2, 9, 0, 20, 25⟩] [⟨1, 5, 0, 30, 31⟩]
        (mset emptyMap 1 3)).2 1 = some (max 3 (7 + 1))
      ∧ (process [⟨1, 7, 0, 0, 3⟩, ⟨1, 4, 0, 10, 14⟩, ⟨2, 9, 0, 20, 25⟩] [⟨1, 5, 0, 30, 31⟩]
        (mset emptyMap 1 3)).2 2 = some (9 + 1)
      ∧ (process [⟨1, 7, 0, 0, 3⟩, ⟨1, 4, 0, 10, 14⟩, ⟨2, 9, 0, 20, 25⟩] [⟨1, 5, 0, 30, 31⟩]
        (mset emptyMap 1 3)).2 5 = none :=
  ⟨((C19_tracker_entry_after_process [⟨1, 7, 0, 0, 3⟩, ⟨1, 4, 0, 10, 14⟩, ⟨2, 9, 0, 20, 25⟩]
      [⟨1, 5, 0, 30, 31⟩] (mset emptyMap 1 3) 1).2.1 7 (by decide) (by decide)).2 3 rfl,
    ((C19_tracker_entry_after_process [⟨1, 7, 0, 0, 3⟩, ⟨1, 4, 0, 10, 14⟩, ⟨2, 9, 0, 20, 25⟩]
      [⟨1, 5, 0, 30, 31⟩] (mset emptyMap 1 3) 2).2.1 9 (by decide) (by decide)).1 rfl,
    (C19_tracker_entry_after_process [⟨1, 7, 0, 0, 3⟩, ⟨1, 4, 0, 10, 14⟩, ⟨2, 9, 0, 20, 25⟩]
      [⟨1, 5, 0, 30, 31⟩] (mset emptyMap 1 3) 5).1 (by decide)⟩

end Paddleball
